import Mathlib

/-!
Verification development for the tgimg-core ThumbHash codec.

The Go encoder lives in `cli/internal/thumbhash/thumbhash.go`; the
TypeScript decoder lives in the web package (`thumbhash.ts`).  Both are
embedded shallowly below:

* machine floats (`float32`/`float64`) are modelled as exact rationals `ℚ`.
  Every quantity the encoder rounds into a bit field is a small rational
  (magnitudes ≤ a few hundred, denominators coming from pixel counts), so
  the rounded integers agree with the exact-rational model whenever the
  float value is not within rounding error of a half-integer boundary; the
  dimension roundings in particular divide integers `≤ 700` by integers
  `≤ 100`, where the float32 quotient can never cross an integer or
  half-integer boundary (the distance of the exact quotient from such a
  boundary is at least `1/200`, far above float32 error).
* `math.Cos` values are abstracted by a parameter
  `cosf : ℕ → ℕ → ℚ`, where `cosf n d` stands for `cos (π * n / d)`.
  Theorems that depend on properties of the cosine table assume only
  `cosf 0 d = 1` and `|cosf n d| ≤ 1`, which hold for the real cosine.
* Go slices / JS typed arrays are modelled as total functions `ℕ → ℚ`
  (scratch buffers) or `List ℕ` (byte buffers), with out-of-range JS
  `Uint8Array` reads yielding `undefined`, which behaves as `0` in the
  decoder's bit operations.
-/

namespace Tgimg

/-- Go `math.Round`: rounds half away from zero.  Modelled on `ℚ`; for a
nonnegative argument this is `⌊q + 1/2⌋`. -/
def goRound (q : ℚ) : ℤ :=
  if q < 0 then -(⌊-q + 1/2⌋) else ⌊q + 1/2⌋

/-- JS `Math.round`: rounds half toward positive infinity, `⌊q + 1/2⌋`. -/
def jsRound (q : ℚ) : ℤ :=
  ⌊q + 1/2⌋

/-- Go helper `clamp01f` (thumbhash.go): clamp a float to `[0, 1]`. -/
def clamp01 (v : ℚ) : ℚ :=
  if v < 0 then 0 else if 1 < v then 1 else v

/-- Storing an integer into a JS `Uint8Array` slot truncates it to an
unsigned byte. -/
def toU8 (z : ℤ) : ℕ :=
  (z % 256).toNat

/-- Go helper `max1` (thumbhash.go): `if v < 1 { return 1 }; return v`. -/
def max1 (v : ℕ) : ℕ :=
  max 1 v

/-- Go helper `roundF(float32(a) / float32(b))` for naturals `a`, `b`
(all of its call sites have this shape).  `math.Round` rounds half away
from zero, which for the nonnegative quotient `a / b` is round-half-up,
i.e. `⌊(a + b/2) / b⌋ = (2a + b) / (2b)` in integer arithmetic. -/
def roundF (a b : ℕ) : ℕ :=
  (2 * a + b) / (2 * b)

/-- Constant `maxThumbDim` from thumbhash.go. -/
def maxThumbDim : ℕ := 100

/-- Go `thumbDims` (thumbhash.go lines 83–91): choose the proxy
dimensions.  Note the shorter side uses Go integer (floor) division. -/
def thumbDims (srcW srcH : ℕ) : ℕ × ℕ :=
  if srcW ≤ maxThumbDim ∧ srcH ≤ maxThumbDim then (srcW, srcH)
  else if srcH ≤ srcW then (maxThumbDim, max1 (srcH * maxThumbDim / srcW))
  else (max1 (srcW * maxThumbDim / srcH), maxThumbDim)

/-- The spec's version of the proxy-dimension rule (§3/§4.B), written with
round-to-nearest on the shorter side as the spec sentence states. -/
def specThumbDims (srcW srcH : ℕ) : ℕ × ℕ :=
  if srcW ≤ 100 ∧ srcH ≤ 100 then (srcW, srcH)
  else if srcH ≤ srcW then (100, max 1 (roundF (srcH * 100) srcW))
  else (max 1 (roundF (srcW * 100) srcH), 100)

/-- Round-half-to-even on `ℚ` (the rounding mode the spec claims the
encoder uses). -/
def roundHalfEven (q : ℚ) : ℤ :=
  if q - ⌊q⌋ < 1/2 then ⌊q⌋
  else if 1/2 < q - ⌊q⌋ then ⌊q⌋ + 1
  else if ⌊q⌋ % 2 = 0 then ⌊q⌋ else ⌊q⌋ + 1

/-- DCT basis dimensions chosen by `assembleHash` (thumbhash.go lines
559–573).  When `hasAlpha` is false the Go code leaves `ax = ay = 0`
(the zero value of the declared `var ax, ay int`). -/
structure Basis where
  lx : ℕ
  ly : ℕ
  px : ℕ
  py : ℕ
  ax : ℕ
  ay : ℕ
deriving Repr, DecidableEq

/-- Encoder basis selection, from `assembleHash` (thumbhash.go 559–573). -/
def encBasis (w h : ℕ) (hasAlpha : Bool) : Basis :=
  let lLimit : ℕ := if hasAlpha then 5 else 7
  let m := max w h
  { lx := max1 (roundF (lLimit * w) m)
    ly := max1 (roundF (lLimit * h) m)
    px := max1 (roundF (3 * w) m)
    py := max1 (roundF (3 * h) m)
    ax := if hasAlpha then max1 (roundF (5 * w) m) else 0
    ay := if hasAlpha then max1 (roundF (5 * h) m) else 0 }

/-- Decoder reconstruction of the luma basis dimensions from the header
fields (thumbhash.ts lines 80–88). -/
def decodeDims (hasAlpha : Bool) (dimFlag : ℕ) (isLandscape : Bool) : ℕ × ℕ :=
  let lLimit : ℕ := if hasAlpha then 5 else 7
  if isLandscape then (lLimit, max 1 dimFlag) else (max 1 dimFlag, lLimit)

-- ─── encoder: DCT and bit packing (thumbhash.go 539–783) ─────────────

/-- One forward DCT coefficient (`encodeChan` inner loops, thumbhash.go
744–756): sum `data[y*w*stride + x*stride + chanOff] * cosX[cx*w + x] *
cosY[cy*h + y]` over the proxy, divided by `w*h`. -/
def dctCoeff (data : ℕ → ℚ) (chanOff stride w h : ℕ)
    (cosX cosY : ℕ → ℚ) (cx cy : ℕ) : ℚ :=
  (∑ y ∈ Finset.range h, ∑ x ∈ Finset.range w,
      data (y * w * stride + x * stride + chanOff) *
        cosX (cx * w + x) * cosY (cy * h + y)) / (w * h : ℕ)

/-- Largest absolute value seen while writing the AC vector (`acMax`
accumulation in `encodeChan`, thumbhash.go 763–771). -/
def absMaxList (l : List ℚ) : ℚ :=
  l.foldl (fun m c => max m |c|) 0

/-- Go `encodeChan` (thumbhash.go 737–783).  The `(cx, cy)` loop runs
`cy` outer / `cx` inner; flattening by `k = cy*nx + cx` the AC vector is
the coefficients at `k = 1, …, nx*ny − 1` (the `continue` skips
`k = 0`, which becomes the DC).  Returns `(scale, dc, normalized ACs)`:
the ACs are divided by `acMax` when `acMax > 0`. -/
def encodeChan (data : ℕ → ℚ) (chanOff stride w h nx ny : ℕ)
    (cosX cosY : ℕ → ℚ) : ℚ × ℚ × List ℚ :=
  let f : ℕ → ℚ := fun k =>
    dctCoeff data chanOff stride w h cosX cosY (k % nx) (k / nx)
  let raw := ((List.range (nx * ny)).drop 1).map f
  let acMax := absMaxList raw
  let dc := dctCoeff data chanOff stride w h cosX cosY 0 0
  let ac := if 0 < acMax then raw.map (fun c => c / acMax) else raw
  (acMax, dc, ac)

/-- RGBA → LPQA in-place conversion (thumbhash.go 576–585): premultiply
by alpha, then `L = (r+g+b)/3`, `P = (r+g)/2 − b`, `Q = r − g`, alpha
kept. -/
def lpqaOf (rgba : ℕ → ℚ) : ℕ → ℚ := fun i =>
  let base := i / 4 * 4
  let a := rgba (base + 3)
  let r := rgba base * a
  let g := rgba (base + 1) * a
  let b := rgba (base + 2) * a
  match i % 4 with
  | 0 => (r + g + b) / 3
  | 1 => (r + g) / 2 - b
  | 2 => r - g
  | _ => a

/-- Cosine table `cosX[cx*w + x] = cos(π*cx*(x+0.5)/w)` (thumbhash.go
594–601), expressed through the abstract cosine `cosf n d ≈ cos (π n/d)`:
the angle is `π * (cx*(2x+1)) / (2w)`. -/
def cosTable (cosf : ℕ → ℕ → ℚ) (w : ℕ) : ℕ → ℚ := fun idx =>
  cosf (idx / w * (2 * (idx % w) + 1)) (2 * w)

/-- All per-channel DCT outputs of `assembleHash` before bit packing
(thumbhash.go 543–634).  `avgR`, `avgG`, `avgB` are also computed by the
source but are never read afterwards, so they are omitted here; only the
alpha average feeds `hasAlpha`.  When `hasAlpha` is false the alpha
channel is not encoded (`aScale = aDC = 0`, no `aAC`). -/
structure EncFields where
  hasAlpha : Bool
  basis : Basis
  lScale : ℚ
  lDC : ℚ
  pScale : ℚ
  pDC : ℚ
  qScale : ℚ
  qDC : ℚ
  aScale : ℚ
  aDC : ℚ
  lAC : List ℚ
  pAC : List ℚ
  qAC : List ℚ
  aAC : List ℚ

/-- The DCT stage of `assembleHash` (thumbhash.go 543–634). -/
def encFields (cosf : ℕ → ℕ → ℚ) (w h : ℕ) (data : ℕ → ℚ) : EncFields :=
  let count := w * h
  let avgA := (∑ i ∈ Finset.range count, data (i * 4 + 3)) / (count : ℕ)
  let hasAlpha := decide (avgA < 1)
  let B := encBasis w h hasAlpha
  let lpqa := lpqaOf data
  let cosX := cosTable cosf w
  let cosY := cosTable cosf h
  let l := encodeChan lpqa 0 4 w h B.lx B.ly cosX cosY
  let p := encodeChan lpqa 1 4 w h B.px B.py cosX cosY
  let q := encodeChan lpqa 2 4 w h B.px B.py cosX cosY
  let a := if hasAlpha then encodeChan lpqa 3 4 w h B.ax B.ay cosX cosY
           else (0, 0, [])
  { hasAlpha := hasAlpha, basis := B
    lScale := l.1, lDC := l.2.1
    pScale := p.1, pDC := p.2.1
    qScale := q.1, qDC := q.2.1
    aScale := a.1, aDC := a.2.1
    lAC := l.2.2, pAC := p.2.2, qAC := q.2.2, aAC := a.2.2 }

/-- Quantized nibble for one AC coefficient:
`round(clamp01(c/2 + 0.5) * 15)` (thumbhash.go 713–716). -/
def nibOf (c : ℚ) : ℕ :=
  (goRound (clamp01 (c / 2 + 1/2) * 15)).toNat

/-- The quantized header fields and AC nibbles of `assembleHash`
(thumbhash.go 667–731), kept as integers before byte assembly so range
claims can talk about them. -/
structure PackedFields where
  lDCq : ℤ
  pDCq : ℤ
  qDCq : ℤ
  lScaleq : ℤ
  pScaleq : ℤ
  qScaleq : ℤ
  aDCq : ℤ
  aScaleq : ℤ
  dimFlag : ℕ
  isLandscape : Bool
  nibbles : List ℕ

/-- Quantization stage of `assembleHash` (thumbhash.go 667–731).
`isLandscape = w > h`; `dimFlag` stores `ly` for landscape and `lx`
otherwise; nibbles are packed in the order `lAC, pAC, qAC [, aAC]`. -/
def packFields (w h : ℕ) (f : EncFields) : PackedFields :=
  { lDCq := goRound (f.lDC * 63)
    pDCq := goRound (f.pDC * 31 + 31)
    qDCq := goRound (f.qDC * 31 + 31)
    lScaleq := goRound (f.lScale * 31)
    pScaleq := goRound (f.pScale * 63)
    qScaleq := goRound (f.qScale * 63)
    aDCq := if f.hasAlpha then goRound (f.aDC * 15) else 0
    aScaleq := if f.hasAlpha then goRound (f.aScale * 15) else 0
    dimFlag := if h < w then f.basis.ly else f.basis.lx
    isLandscape := decide (h < w)
    nibbles :=
      (f.lAC ++ f.pAC ++ f.qAC ++ (if f.hasAlpha then f.aAC else [])).map nibOf }

/-- Pack nibbles two per byte, low nibble first; an odd tail leaves the
high nibble zero (thumbhash.go 712–725). -/
def packPairs : List ℕ → List ℕ
  | [] => []
  | [a] => [a]
  | a :: b :: t => (a ||| (b <<< 4)) :: packPairs t

/-- Byte-assembly stage of `assembleHash` (thumbhash.go 689–733), taking
the proxy slice as a function that is zero outside `[0, w*h*4)` (a Go
slice of exactly that length). -/
def assembleHashCore (cosf : ℕ → ℕ → ℚ) (w h : ℕ) (data : ℕ → ℚ) : List ℕ :=
  let f := encFields cosf w h data
  let pk := packFields w h f
  let header : ℕ :=
    pk.lDCq.toNat ||| (pk.pDCq.toNat <<< 6) ||| (pk.qDCq.toNat <<< 12) |||
    (pk.lScaleq.toNat <<< 18) ||| ((if f.hasAlpha then 1 else 0) <<< 23) |||
    (pk.dimFlag <<< 24) ||| ((if pk.isLandscape then 1 else 0) <<< 28)
  let header2 : ℕ := pk.pScaleq.toNat ||| (pk.qScaleq.toNat <<< 6)
  let alphaHdr : ℕ := pk.aDCq.toNat ||| (pk.aScaleq.toNat <<< 4)
  [header &&& 255, (header >>> 8) &&& 255, (header >>> 16) &&& 255,
   (header >>> 24) &&& 255, header2 &&& 255, (header2 >>> 8) &&& 255] ++
  (if f.hasAlpha then [alphaHdr &&& 255, (alphaHdr >>> 8) &&& 255] else []) ++
  packPairs pk.nibbles

/-- Go `assembleHash(w, h, wb)` (thumbhash.go 539): the function only
sees the slice `wb.rgba[:w*h*4]`, so the buffer is truncated to that
range here. -/
def assembleHash (cosf : ℕ → ℕ → ℚ) (w h : ℕ) (rgba : ℕ → ℚ) : List ℕ :=
  assembleHashCore cosf w h (fun i => if i < w * h * 4 then rgba i else 0)

-- ─── encoder: proxy building and the public Encode (thumbhash.go 59–141,
-- 144–178, 442–480, 837–847, 896–900) ────────────────────────────────

/-- Go `srcSpan` (thumbhash.go 837–847). -/
def srcSpan (d dstSize srcSize : ℕ) : ℕ × ℕ :=
  let s0 := d * srcSize / dstSize
  let s1 := (d + 1) * srcSize / dstSize
  let s1a := if s1 ≤ s0 then s0 + 1 else s1
  (s0, min s1a srcSize)

/-- Source images reaching the encoder, restricted to the two packed
8-bit RGBA layouts (the fast paths where the pooled buffer is visible:
their `a = 0` branches skip writes and rely on the zeroed proxy).
`pix` is the packed byte slice as produced by `image.NewNRGBA` /
`image.NewRGBA`: bounds at the origin and row stride `4*w`, so pixel
`(x, y)` channel `c` lives at index `(y*w + x)*4 + c`. -/
inductive Image where
  | nrgba (w h : ℕ) (pix : List ℕ)
  | rgba (w h : ℕ) (pix : List ℕ)

/-- Width of the source bounds. -/
def Image.width : Image → ℕ
  | .nrgba w _ _ => w
  | .rgba w _ _ => w

/-- Height of the source bounds. -/
def Image.height : Image → ℕ
  | .nrgba _ h _ => h
  | .rgba _ h _ => h

/-- Direct extraction for `*image.NRGBA` (thumbhash.go 444–460): every
destination float is written, as `pix[i] / 255`.  `buf` is the proxy
region the function writes into; locations outside `[0, w*h*4)` are
untouched. -/
def extractNRGBA (pix : List ℕ) (w h : ℕ) (buf : ℕ → ℚ) : ℕ → ℚ := fun i =>
  if i < w * h * 4 then (pix.getD i 0 : ℚ) / 255 else buf i

/-- Direct extraction for `*image.RGBA` (thumbhash.go 461–480): alpha is
always written as `a / 255`; the RGB floats are written as `pix[i] / a`
only when the pixel alpha is positive, otherwise the destination keeps
its previous (zeroed) contents. -/
def extractRGBA (pix : List ℕ) (w h : ℕ) (buf : ℕ → ℚ) : ℕ → ℚ := fun i =>
  if i < w * h * 4 then
    let base := i / 4 * 4
    let a : ℕ := pix.getD (base + 3) 0
    if i % 4 = 3 then (a : ℚ) / 255
    else if 0 < a then (pix.getD i 0 : ℚ) / a
    else buf i
  else buf i

/-- Area downsample for `*image.NRGBA` (`dsNRGBA`, thumbhash.go
111–142): each destination channel is the byte sum over the source span
divided by `span * 255`. -/
def dsNRGBA (pix : List ℕ) (srcW srcH dstW dstH : ℕ) (buf : ℕ → ℚ) :
    ℕ → ℚ := fun i =>
  if i < dstW * dstH * 4 then
    let di := i / 4
    let ch := i % 4
    let dy := di / dstW
    let dx := di % dstW
    let sy := srcSpan dy dstH srcH
    let sx := srcSpan dx dstW srcW
    let s : ℕ := ∑ y ∈ Finset.Ico sy.1 sy.2, ∑ x ∈ Finset.Ico sx.1 sx.2,
      pix.getD ((y * srcW + x) * 4 + ch) 0
    (s : ℚ) / (((sy.2 - sy.1) * (sx.2 - sx.1) * 255 : ℕ) : ℚ)
  else buf i

/-- Area downsample for `*image.RGBA` (`dsRGBA`, thumbhash.go 145–178):
alpha is the byte sum over the span divided by `span * 255`; RGB are the
byte sums divided by the alpha sum when it is positive, and are left
unwritten (zeroed) otherwise. -/
def dsRGBA (pix : List ℕ) (srcW srcH dstW dstH : ℕ) (buf : ℕ → ℚ) :
    ℕ → ℚ := fun i =>
  if i < dstW * dstH * 4 then
    let di := i / 4
    let ch := i % 4
    let dy := di / dstW
    let dx := di % dstW
    let sy := srcSpan dy dstH srcH
    let sx := srcSpan dx dstW srcW
    let chSum : ℕ → ℕ := fun c =>
      ∑ y ∈ Finset.Ico sy.1 sy.2, ∑ x ∈ Finset.Ico sx.1 sx.2,
        pix.getD ((y * srcW + x) * 4 + c) 0
    if ch = 3 then
      (chSum 3 : ℚ) / (((sy.2 - sy.1) * (sx.2 - sx.1) * 255 : ℕ) : ℚ)
    else if 0 < chSum 3 then (chSum ch : ℚ) / (chSum 3 : ℕ)
    else buf i
  else buf i

/-- Go `Encode` (thumbhash.go 59–81), made explicit in the scratch
buffer `wb0` leased from the pool: the proxy region `[0, dstW*dstH*4)`
is zeroed (`zeroF32`), then filled by the extraction or downsampling
path, and `assembleHash` runs over it.  A zero-area source short-circuits
to the nil hash. -/
def EncodeWith (cosf : ℕ → ℕ → ℚ) (img : Image) (wb0 : ℕ → ℚ) : List ℕ :=
  let srcW := img.width
  let srcH := img.height
  if srcW = 0 ∨ srcH = 0 then [] else
  let d := thumbDims srcW srcH
  let n := d.1 * d.2 * 4
  let buf1 : ℕ → ℚ := fun i => if i < n then 0 else wb0 i
  let proxy :=
    if srcW ≤ d.1 ∧ srcH ≤ d.2 then
      match img with
      | .nrgba _ _ pix => extractNRGBA pix d.1 d.2 buf1
      | .rgba _ _ pix => extractRGBA pix d.1 d.2 buf1
    else
      match img with
      | .nrgba _ _ pix => dsNRGBA pix srcW srcH d.1 d.2 buf1
      | .rgba _ _ pix => dsRGBA pix srcW srcH d.1 d.2 buf1
  assembleHash cosf d.1 d.2 proxy

-- ─── decoder (thumbhash.ts) ───────────────────────────────────────────

/-- Reading `hash[i]` from a JS `Uint8Array`: out-of-range reads give
`undefined`, which the decoder's bit operations treat as `0`. -/
def byteAt (hash : List ℕ) (i : ℕ) : ℕ :=
  hash.getD i 0

/-- Result of `thumbHashToRGBA`. -/
structure DecodeResult where
  w : ℕ
  h : ℕ
  rgba : List ℕ
deriving DecidableEq, Repr

/-- Flattening of the decoder's row-major RGBA pixel writes into a byte
list: pixel `i` contributes four consecutive bytes. -/
def flat4 : ℕ → (ℕ → ℕ × ℕ × ℕ × ℕ) → List ℕ
  | 0, _ => []
  | n + 1, f =>
    (f 0).1 :: (f 0).2.1 :: (f 0).2.2.1 :: (f 0).2.2.2 ::
      flat4 n (fun i => f (i + 1))

/-- BT.709 chroma attenuation in place (`attenuateChroma`,
thumbhash.ts 211–223); the alpha byte of each pixel is untouched. -/
def attenuateChroma (rgba : List ℕ) (c : ℚ) : List ℕ :=
  let cc := max 0 c
  flat4 (rgba.length / 4) fun i =>
    let r : ℚ := rgba.getD (4 * i) 0
    let g : ℚ := rgba.getD (4 * i + 1) 0
    let b : ℚ := rgba.getD (4 * i + 2) 0
    let y := 2126/10000 * r + 7152/10000 * g + 722/10000 * b
    (toU8 (jsRound (y + (r - y) * cc)),
     toU8 (jsRound (y + (g - y) * cc)),
     toU8 (jsRound (y + (b - y) * cc)),
     rgba.getD (4 * i + 3) 0)

/-- Average RGB over the first `n` pixels (`computeAvgRGB`,
thumbhash.ts 226–234). -/
def computeAvgRGB (rgba : List ℕ) (n : ℕ) : ℚ × ℚ × ℚ :=
  ((∑ i ∈ Finset.range n, (rgba.getD (4 * i) 0 : ℚ)) / n,
   (∑ i ∈ Finset.range n, (rgba.getD (4 * i + 1) 0 : ℚ)) / n,
   (∑ i ∈ Finset.range n, (rgba.getD (4 * i + 2) 0 : ℚ)) / n)

/-- Shift the buffer mean toward `target` (`applyBiasCorrection`,
thumbhash.ts 237–253): add `(target − avg) * gain` per channel, round,
clamp to `[0, 255]`; alpha untouched. -/
def applyBiasCorrection (rgba : List ℕ) (n : ℕ) (target : ℚ × ℚ × ℚ)
    (gain : ℚ) : List ℕ :=
  let avg := computeAvgRGB rgba n
  let dr := (target.1 - avg.1) * gain
  let dg := (target.2.1 - avg.2.1) * gain
  let db := (target.2.2 - avg.2.2) * gain
  flat4 n fun i =>
    ((max 0 (min 255 (jsRound ((rgba.getD (4 * i) 0 : ℚ) + dr)))).toNat,
     (max 0 (min 255 (jsRound ((rgba.getD (4 * i + 1) 0 : ℚ) + dg)))).toNat,
     (max 0 (min 255 (jsRound ((rgba.getD (4 * i + 2) 0 : ℚ) + db)))).toNat,
     rgba.getD (4 * i + 3) 0)

/-- Output size selection of the decoder (thumbhash.ts 122–125):
`ratio = lx/ly` (landscape) or `ly/lx` (portrait) when larger than 1,
and the shorter output side is `round(32 / ratio)`. -/
def decSize (lx ly : ℕ) (isLandscape : Bool) : ℕ × ℕ :=
  let ratio : ℚ :=
    if isLandscape then (if ly < lx then (lx : ℚ) / ly else 1)
    else (if lx < ly then (ly : ℚ) / lx else 1)
  ((jsRound (if isLandscape then 32 else 32 / ratio)).toNat,
   (jsRound (if isLandscape then 32 / ratio else 32)).toNat)

/-- Raw reconstruction of `thumbHashToRGBA` (thumbhash.ts 44–200, before
the optional chroma attenuation), abstracted over the byte accessor `bA`
(the JS code touches the hash only through `hash[i]`).  All field
extractions mask their bits, so modelling the header as a plain natural
with `|||`/`<<<` agrees with JS 32-bit arithmetic. -/
def thumbHashToRGBARaw (cosf : ℕ → ℕ → ℚ) (bA : ℕ → ℕ) : DecodeResult :=
  let header := bA 0 ||| (bA 1 <<< 8) ||| (bA 2 <<< 16) ||| (bA 3 <<< 24)
  let header2 := bA 4 ||| (bA 5 <<< 8)
  let lDC : ℚ := (header &&& 63 : ℕ) / 63
  let pDC : ℚ := (((header >>> 6) &&& 63 : ℕ) : ℚ) / 31 - 1
  let qDC : ℚ := (((header >>> 12) &&& 63 : ℕ) : ℚ) / 31 - 1
  let lScale : ℚ := ((header >>> 18) &&& 31 : ℕ) / 31
  let hasAlpha := (header >>> 23) &&& 1 == 1
  let dimFlag := (header >>> 24) &&& 15
  let isLandscape := (header >>> 28) &&& 1 == 1
  let pScale : ℚ := (header2 &&& 63 : ℕ) / 63
  let qScale : ℚ := ((header2 >>> 6) &&& 63 : ℕ) / 63
  let d := decodeDims hasAlpha dimFlag isLandscape
  let lx := d.1
  let ly := d.2
  let alphaHeader := bA 6 ||| (bA 7 <<< 8)
  let aDC : ℚ := if hasAlpha then (alphaHeader &&& 15 : ℕ) / 15 else 1
  let aScale : ℚ :=
    if hasAlpha then ((alphaHeader >>> 4) &&& 15 : ℕ) / 15 else 0
  let acOffset := if hasAlpha then 8 else 6
  let nib : ℕ → ℕ := fun k =>
    let b := bA (acOffset + k / 2)
    if k % 2 = 0 then b &&& 15 else (b >>> 4) &&& 15
  let coef : ℕ → ℚ := fun k => (nib k : ℚ) / 15 * 2 - 1
  let lCount := lx * ly - 1
  let lAC : ℕ → ℚ := fun j => coef j
  let pAC : ℕ → ℚ := fun j => coef (lCount + j)
  let qAC : ℕ → ℚ := fun j => coef (lCount + 8 + j)
  let aAC : ℕ → ℚ := fun j => coef (lCount + 16 + j)
  let s := decSize lx ly isLandscape
  let w := s.1
  let h := s.2
  let chanSum : ℕ → ℕ → (ℕ → ℚ) → ℚ → ℕ → ℕ → ℚ :=
    fun nx ny ac scale x y =>
      ∑ cy ∈ Finset.range ny, ∑ cx ∈ Finset.range nx,
        if cx = 0 ∧ cy = 0 then 0
        else ac (cy * nx + cx - 1) * scale *
          cosf (cx * (2 * x + 1)) (2 * w) * cosf (cy * (2 * y + 1)) (2 * h)
  let pixel : ℕ → ℕ × ℕ × ℕ × ℕ := fun i =>
    let x := i % w
    let y := i / w
    let l := lDC + chanSum lx ly lAC lScale x y
    let p := pDC + chanSum 3 3 pAC pScale x y
    let q := qDC + chanSum 3 3 qAC qScale x y
    let a := if hasAlpha then aDC + chanSum lx ly aAC aScale x y else aDC
    let b := l - 2/3 * p
    let r := (3 * l - b + q) / 2
    let g := r - q
    ((max 0 (min 255 (jsRound (r * 255)))).toNat,
     (max 0 (min 255 (jsRound (g * 255)))).toNat,
     (max 0 (min 255 (jsRound (b * 255)))).toNat,
     (max 0 (min 255 (jsRound (a * 255)))).toNat)
  ⟨w, h, flat4 (w * h) pixel⟩

/-- Chroma step of `thumbHashToRGBA` (thumbhash.ts 202–205): the raw
buffer is attenuated in place only when a chroma below 1 was supplied. -/
def thumbHashToRGBABytes (cosf : ℕ → ℕ → ℚ) (bA : ℕ → ℕ)
    (chroma : Option ℚ) : DecodeResult :=
  let res := thumbHashToRGBARaw cosf bA
  match chroma with
  | some c =>
    if c < 1 then ⟨res.w, res.h, attenuateChroma res.rgba c⟩ else res
  | none => res

/-- JS `thumbHashToRGBA(hash, chroma?)` (thumbhash.ts 44–206). -/
def thumbHashToRGBA (cosf : ℕ → ℕ → ℚ) (hash : List ℕ)
    (chroma : Option ℚ) : DecodeResult :=
  thumbHashToRGBABytes cosf (byteAt hash) chroma

/-- Total number of AC nibbles consumed by the decoder's four `readAC`
calls (thumbhash.ts 117–120): `lx*ly − 1` for luma, `3*3 − 1` for each
of P and Q, and `lx*ly − 1` again for alpha when present.  Computed from
the same header parse the decoder performs. -/
def decNibbleTotal (hash : List ℕ) : ℕ :=
  let header := byteAt hash 0 ||| (byteAt hash 1 <<< 8) |||
    (byteAt hash 2 <<< 16) ||| (byteAt hash 3 <<< 24)
  let hasAlpha := (header >>> 23) &&& 1 == 1
  let dimFlag := (header >>> 24) &&& 15
  let isLandscape := (header >>> 28) &&& 1 == 1
  let d := decodeDims hasAlpha dimFlag isLandscape
  (d.1 * d.2 - 1) + (3 * 3 - 1) + (3 * 3 - 1) +
    (if hasAlpha then d.1 * d.2 - 1 else 0)

/-- Pixel pipeline of `thumbHashToDataURL` (thumbhash.ts 311–350),
without the BMP serialization: with a target average color the adaptive
path decodes raw, measures the distance from the target, picks the
attenuation factor, attenuates, then applies bias correction with gain
`0.45`.  The source compares `Math.sqrt(dist2)` against `20` and `45`;
since both sides are nonnegative this equals comparing `dist2` against
`400` and `2025`, which keeps the definition computable. -/
def thumbHashToDataURLPixels (cosf : ℕ → ℕ → ℚ) (hash : List ℕ)
    (chroma : Option ℚ) (avgColor : Option (ℚ × ℚ × ℚ)) : DecodeResult :=
  match avgColor with
  | some t =>
    let res := thumbHashToRGBA cosf hash none
    let n := res.w * res.h
    let phAvg := computeAvgRGB res.rgba n
    let dist2 := (phAvg.1 - t.1) ^ 2 + (phAvg.2.1 - t.2.1) ^ 2 +
      (phAvg.2.2 - t.2.2) ^ 2
    let ac : ℚ := if dist2 < 400 then 55/100
      else if dist2 < 2025 then 40/100 else 28/100
    let buf1 := if ac < 1 then attenuateChroma res.rgba ac else res.rgba
    let buf2 := applyBiasCorrection buf1 n t (45/100)
    ⟨res.w, res.h, buf2⟩
  | none => thumbHashToRGBA cosf hash chroma

-- ─── pixel pipeline described by the spec for the adaptive path ───────

/-- The adaptive pipeline exactly as §4.E of the spec sequences it:
raw decode, raw mean, distance to the target, threshold choice of the
attenuation factor, unconditional BT.709 attenuation with that factor,
then bias correction with gain `0.45` toward the target (the clamp to
`[0, 255]` lives inside `applyBiasCorrection`).  Thresholds are stated
on the squared distance (`dist < 20 ↔ dist² < 400`,
`dist < 45 ↔ dist² < 2025`). -/
def adaptiveSpecPipeline (cosf : ℕ → ℕ → ℚ) (hash : List ℕ)
    (t : ℚ × ℚ × ℚ) : DecodeResult :=
  let res := thumbHashToRGBA cosf hash none
  let n := res.w * res.h
  let m := computeAvgRGB res.rgba n
  let dist2 := (m.1 - t.1) ^ 2 + (m.2.1 - t.2.1) ^ 2 + (m.2.2 - t.2.2) ^ 2
  let ac : ℚ := if dist2 < 400 then 55/100
    else if dist2 < 2025 then 40/100 else 28/100
  let att := attenuateChroma res.rgba ac
  ⟨res.w, res.h, applyBiasCorrection att n t (45/100)⟩

-- ─── concrete inputs used in witnesses and counterexamples ────────────

/-- Degenerate cosine table: every entry is `1`.  It satisfies the two
properties assumed of the real cosine (`cosf 0 d = 1`, `|cosf n d| ≤ 1`)
and keeps concrete evaluation cheap. -/
def cosfOne : ℕ → ℕ → ℚ := fun _ _ => 1

/-- Cosine stand-in that is `1` at angle zero and `0` elsewhere.  Also
satisfies the assumed cosine properties, and makes every AC coefficient
vanish, which keeps concrete hash evaluation tractable. -/
def cosfOrtho : ℕ → ℕ → ℚ := fun n _ => if n = 0 then 1 else 0

/-- A solid red opaque 1×1 NRGBA image. -/
def img1x1 : Image := .nrgba 1 1 [255, 0, 0, 255]

/-- A solid red opaque 2×1 NRGBA image (landscape, aspect ratio 2). -/
def img2x1 : Image := .nrgba 2 1 [255, 0, 0, 255, 255, 0, 0, 255]

-- ══════════════════════════════════════════════════════════════════════
-- Theorems
-- ══════════════════════════════════════════════════════════════════════

-- ─── basic facts about the rounding helpers ───────────────────────────

theorem roundF_as_floor (a b : ℕ) (hb : 0 < b) :
    (roundF a b : ℤ) = ⌊(a : ℚ) / b + 1/2⌋ := by
  have hb' : ((b : ℚ)) ≠ 0 := by positivity
  have h : (a : ℚ) / b + 1/2 = ((2 * a + b : ℕ) : ℚ) / ((2 * b : ℕ) : ℚ) := by
    push_cast
    field_simp
    ring
  rw [h, Rat.floor_natCast_div_natCast]
  unfold roundF
  norm_cast

theorem goRound_nonneg_eq (q : ℚ) (h : 0 ≤ q) : goRound q = ⌊q + 1/2⌋ := by
  unfold goRound
  rw [if_neg (by linarith)]

theorem roundF_eq_goRound (a b : ℕ) (hb : 0 < b) :
    (roundF a b : ℤ) = goRound ((a : ℚ) / b) := by
  rw [goRound_nonneg_eq _ (by positivity), roundF_as_floor a b hb]

/-- Upper bound: `roundF (k * w) m ≤ k` whenever `w ≤ m`. -/
theorem roundF_le (k w m : ℕ) (hw : w ≤ m) (hm : 0 < m) :
    roundF (k * w) m ≤ k := by
  unfold roundF
  have h1 : 2 * (k * w) + m ≤ (2 * k + 1) * m := by nlinarith
  calc (2 * (k * w) + m) / (2 * m) ≤ ((2 * k + 1) * m) / (2 * m) :=
        Nat.div_le_div_right h1
    _ = (2 * k + 1) / 2 := Nat.mul_div_mul_right _ _ hm
    _ = k := by omega

/-- On the longer axis the basis dimension equals the limit:
`roundF (k * m) m = k`. -/
theorem roundF_self (k m : ℕ) (hm : 0 < m) : roundF (k * m) m = k := by
  unfold roundF
  have h1 : 2 * (k * m) + m = (2 * k + 1) * m := by ring
  rw [h1, Nat.mul_div_mul_right _ _ hm]
  omega

theorem goRound_eq_of (q : ℚ) (z : ℤ) (h0 : 0 ≤ q)
    (h1 : (z : ℚ) ≤ q + 1/2) (h2 : q + 1/2 < z + 1) : goRound q = z := by
  rw [goRound_nonneg_eq q h0]
  exact Int.floor_eq_iff.mpr ⟨by exact_mod_cast h1, by exact_mod_cast h2⟩

theorem encodeChan_ac_length (data : ℕ → ℚ) (chanOff stride w h nx ny : ℕ)
    (cosX cosY : ℕ → ℚ) :
    (encodeChan data chanOff stride w h nx ny cosX cosY).2.2.length =
      nx * ny - 1 := by
  unfold encodeChan
  dsimp only
  split <;> simp

-- ─── C5: proxy dimension rule ────────────────────────────────────────

/-- C5, counterexample: the claim says the shorter proxy side is
`max(1, round(other * 100 / longer))` with round-to-nearest, but
`thumbDims` uses Go integer (floor) division: a 300×200 source yields a
100×66 proxy, while rounding `200*100/300 = 66.67` to nearest gives 67. -/
theorem c5_dims_counterexample :
    thumbDims 300 200 = (100, 66) ∧ specThumbDims 300 200 = (100, 67) ∧
    (thumbDims 300 200).2 ≠ (specThumbDims 300 200).2 := by
  refine ⟨by decide, by decide, by decide⟩

/-- C5, amended: for sources with both sides ≤ 100 the proxy equals the
source; otherwise the longer side maps to 100 and the shorter side to
`max(1, ⌊other * 100 / longer⌋)` (floor division, not round-to-nearest),
and both proxy sides always lie in `[1, 100]`. -/
theorem c5_dims_amended (srcW srcH : ℕ) (hW : 1 ≤ srcW) (hH : 1 ≤ srcH) :
    (srcW ≤ 100 ∧ srcH ≤ 100 → thumbDims srcW srcH = (srcW, srcH)) ∧
    (¬(srcW ≤ 100 ∧ srcH ≤ 100) →
      (srcH ≤ srcW → thumbDims srcW srcH = (100, max 1 (srcH * 100 / srcW))) ∧
      (srcW < srcH → thumbDims srcW srcH = (max 1 (srcW * 100 / srcH), 100)) ∧
      max (thumbDims srcW srcH).1 (thumbDims srcW srcH).2 = 100) ∧
    1 ≤ (thumbDims srcW srcH).1 ∧ (thumbDims srcW srcH).1 ≤ 100 ∧
    1 ≤ (thumbDims srcW srcH).2 ∧ (thumbDims srcW srcH).2 ≤ 100 := by
  have hdiv1 : srcH ≤ srcW → srcH * 100 / srcW ≤ 100 := fun hle =>
    Nat.div_le_of_le_mul (by nlinarith)
  have hdiv2 : srcW ≤ srcH → srcW * 100 / srcH ≤ 100 := fun hle =>
    Nat.div_le_of_le_mul (by nlinarith)
  unfold thumbDims maxThumbDim max1
  by_cases hsmall : srcW ≤ 100 ∧ srcH ≤ 100
  · simp only [if_pos hsmall]
    refine ⟨fun _ => trivial, fun hc => absurd hsmall hc, ?_⟩
    exact ⟨hW, hsmall.1, hH, hsmall.2⟩
  · simp only [if_neg hsmall]
    by_cases hord : srcH ≤ srcW
    · simp only [if_pos hord]
      refine ⟨fun hs => absurd hs hsmall, fun _ => ⟨fun _ => trivial, ?_, ?_⟩, ?_⟩
      · intro hlt; omega
      · have := hdiv1 hord; simp; omega
      · have := hdiv1 hord
        refine ⟨by norm_num, by norm_num, ?_, ?_⟩ <;> simp <;> omega
    · simp only [if_neg hord]
      refine ⟨fun hs => absurd hs hsmall,
        fun _ => ⟨fun hle => absurd hle hord, fun _ => trivial, ?_⟩, ?_⟩
      · have := hdiv2 (by omega); simp; omega
      · have := hdiv2 (by omega)
        refine ⟨?_, ?_, by norm_num, by norm_num⟩ <;> simp <;> omega

/-- C5, witness: the amended statement applied to the 300×200 source. -/
theorem c5_dims_witness :
    (¬((300 : ℕ) ≤ 100 ∧ (200 : ℕ) ≤ 100) →
      ((200 : ℕ) ≤ 300 → thumbDims 300 200 = (100, max 1 (200 * 100 / 300))) ∧
      ((300 : ℕ) < 200 → thumbDims 300 200 = (max 1 (300 * 100 / 200), 100)) ∧
      max (thumbDims 300 200).1 (thumbDims 300 200).2 = 100) ∧
    1 ≤ (thumbDims 300 200).1 ∧ (thumbDims 300 200).1 ≤ 100 ∧
    1 ≤ (thumbDims 300 200).2 ∧ (thumbDims 300 200).2 ≤ 100 :=
  (c5_dims_amended 300 200 (by norm_num) (by norm_num)).2

-- ─── C6: rounding mode of the encoder ────────────────────────────────

/-- C6, counterexample: the spec claims round-half-to-even, but the
encoder uses Go `math.Round` (half away from zero).  For a 98×35 proxy
the luma height rounds `7*35/98 = 2.5`: the code produces `ly = 3`,
round-half-to-even would give `2`. -/
theorem c6_rounding_counterexample :
    (encBasis 98 35 false).ly = 3 ∧
    ((encBasis 98 35 false).ly : ℤ) = goRound ((7 * 35 : ℚ) / 98) ∧
    roundHalfEven ((7 * 35 : ℚ) / 98) = 2 ∧ ((3 : ℤ) ≠ 2) := by
  have hfloor : ⌊(7 * 35 : ℚ) / 98⌋ = 2 := by norm_num
  refine ⟨by decide, ?_, ?_, by decide⟩
  · have h1 : (encBasis 98 35 false).ly = roundF (7 * 35) 98 := by decide
    rw [h1, roundF_eq_goRound (7 * 35) 98 (by norm_num)]
    norm_num
  · unfold roundHalfEven
    rw [hfloor]
    norm_num

/-- C6, amended: every integer rounding in the encoder is Go
`math.Round`, i.e. round half away from zero: the basis dimension helper
`roundF` computes exactly `goRound` of the exact quotient, and at a
fractional part of exactly one half `goRound` moves away from zero (up
for nonnegative values — all header fields, nibbles and dimensions round
nonnegative values), not to the nearest even integer. -/
theorem c6_rounding_amended (a b : ℕ) (hb : 0 < b) (q : ℚ)
    (hq : q - ⌊q⌋ = 1/2) :
    (roundF a b : ℤ) = goRound ((a : ℚ) / b) ∧
    goRound q = (if q < 0 then ⌊q⌋ else ⌊q⌋ + 1) := by
  refine ⟨roundF_eq_goRound a b hb, ?_⟩
  by_cases h0 : q < 0
  · rw [if_pos h0]
    unfold goRound
    rw [if_pos h0]
    have h1 : -q + 1/2 = ((-⌊q⌋ : ℤ) : ℚ) := by push_cast; linarith
    rw [h1, Int.floor_intCast]
    omega
  · rw [if_neg h0]
    unfold goRound
    rw [if_neg h0]
    have h1 : q + 1/2 = ((⌊q⌋ + 1 : ℤ) : ℚ) := by push_cast; linarith
    rw [h1, Int.floor_intCast]

/-- C6, witness: the amended statement at `roundF 245 98` and at the
exact half `5/2` (which rounds up to 3, not to the even 2). -/
theorem c6_rounding_witness :
    ((roundF 245 98 : ℤ) = goRound (((245 : ℕ) : ℚ) / ((98 : ℕ) : ℚ))) ∧
    goRound ((5 : ℚ) / 2) =
      (if (5 : ℚ) / 2 < 0 then ⌊(5 : ℚ) / 2⌋ else ⌊(5 : ℚ) / 2⌋ + 1) := by
  have hfloor : ⌊(5 : ℚ) / 2⌋ = 2 := by norm_num
  exact c6_rounding_amended 245 98 (by norm_num) ((5 : ℚ) / 2)
    (by rw [hfloor]; norm_num)

-- ─── C4: alpha basis dimensions ──────────────────────────────────────

/-- C4, counterexample: the claim (and spec §6.2) say the alpha basis is
always 5×5 (24 AC coefficients).  For a 2×1 proxy with alpha the encoder
chooses `ax = 5, ay = 3` and emits `5*3 − 1 = 14` alpha ACs, not 24; the
encoded alpha AC vector indeed has length 14. -/
theorem c4_alpha_basis_counterexample :
    (encBasis 2 1 true).ax = 5 ∧ (encBasis 2 1 true).ay = 3 ∧
    (encBasis 2 1 true).ax * (encBasis 2 1 true).ay - 1 = 14 ∧
    ((14 : ℕ) ≠ 5 * 5 - 1) ∧
    (encFields cosfOrtho 2 1 (fun _ => 0)).aAC.length = 14 := by
  refine ⟨by decide, by decide, by decide, by decide, ?_⟩
  have hdec : decide ((∑ i ∈ Finset.range (2 * 1), (fun _ => (0 : ℚ)) (i * 4 + 3)) /
      ((2 * 1 : ℕ) : ℚ) < 1) = true := by
    rw [decide_eq_true_eq]
    simp
  unfold encFields
  dsimp only
  rw [hdec]
  simp only [if_pos, encodeChan_ac_length]
  decide

/-- C4, amended: when alpha is present the alpha basis equals the luma
basis (both use limit 5 scaled by the proxy aspect ratio, so it shrinks
below 5×5 for elongated proxies), and the encoder's alpha AC count
`ax*ay − 1` and the decoder's alpha AC count `lx*ly − 1` (computed from
`dimFlag`/`isLandscape` via `decodeDims`) agree for every proxy. -/
theorem c4_alpha_basis_amended (w h : ℕ) (hw : 1 ≤ w) (hh : 1 ≤ h) :
    (encBasis w h true).ax = (encBasis w h true).lx ∧
    (encBasis w h true).ay = (encBasis w h true).ly ∧
    decodeDims true
        (if h < w then (encBasis w h true).ly else (encBasis w h true).lx)
        (decide (h < w)) =
      ((encBasis w h true).lx, (encBasis w h true).ly) ∧
    (encBasis w h true).ax * (encBasis w h true).ay - 1 =
      (encBasis w h true).lx * (encBasis w h true).ly - 1 := by
  have hax : (encBasis w h true).ax = (encBasis w h true).lx := by
    simp [encBasis]
  have hay : (encBasis w h true).ay = (encBasis w h true).ly := by
    simp [encBasis]
  refine ⟨hax, hay, ?_, by rw [hax, hay]⟩
  by_cases hlt : h < w
  · have hmax : max w h = w := by omega
    have hlx : (encBasis w h true).lx = 5 := by
      simp [encBasis, hmax, roundF_self 5 w (by omega), max1]
    have hly : 1 ≤ (encBasis w h true).ly := by
      simp [encBasis, max1]
    simp [decodeDims, hlt, hlx]
    omega
  · have hmax : max w h = h := by omega
    have hly : (encBasis w h true).ly = 5 := by
      simp [encBasis, hmax, roundF_self 5 h (by omega), max1]
    have hlx : 1 ≤ (encBasis w h true).lx := by
      simp [encBasis, max1]
    simp [decodeDims, hlt, hly]
    omega

-- ─── decoder buffer lemmas ───────────────────────────────────────────

theorem flat4_length (n : ℕ) (f : ℕ → ℕ × ℕ × ℕ × ℕ) :
    (flat4 n f).length = 4 * n := by
  induction n generalizing f with
  | zero => rfl
  | succ m ih =>
    simp only [flat4, List.length_cons, ih]
    omega

theorem flat4_succ_eq (m : ℕ) (f : ℕ → ℕ × ℕ × ℕ × ℕ) :
    flat4 (m + 1) f =
      [(f 0).1, (f 0).2.1, (f 0).2.2.1, (f 0).2.2.2] ++
        flat4 m (fun i => f (i + 1)) := rfl

theorem flat4_getD (n : ℕ) (f : ℕ → ℕ × ℕ × ℕ × ℕ) (i : ℕ) :
    (flat4 n f).getD (4 * i) 0 = (if i < n then (f i).1 else 0) ∧
    (flat4 n f).getD (4 * i + 1) 0 = (if i < n then (f i).2.1 else 0) ∧
    (flat4 n f).getD (4 * i + 2) 0 = (if i < n then (f i).2.2.1 else 0) ∧
    (flat4 n f).getD (4 * i + 3) 0 = (if i < n then (f i).2.2.2 else 0) := by
  induction n generalizing f i with
  | zero => simp [flat4]
  | succ m ih =>
    cases i with
    | zero => simp [flat4]
    | succ j =>
      obtain ⟨h0, h1, h2, h3⟩ := ih (fun k => f (k + 1)) j
      rw [flat4_succ_eq]
      have e0 : 4 * (j + 1) = 4 + 4 * j := by ring
      have e1 : 4 * (j + 1) + 1 = 4 + (4 * j + 1) := by ring
      have e2 : 4 * (j + 1) + 2 = 4 + (4 * j + 2) := by ring
      have e3 : 4 * (j + 1) + 3 = 4 + (4 * j + 3) := by ring
      refine ⟨?_, ?_, ?_, ?_⟩
      · rw [e0, List.getD_append_right _ _ _ _ (by simp)]
        simpa using h0
      · rw [e1, List.getD_append_right _ _ _ _ (by simp)]
        simpa using h1
      · rw [e2, List.getD_append_right _ _ _ _ (by simp)]
        simpa using h2
      · rw [e3, List.getD_append_right _ _ _ _ (by simp)]
        simpa using h3

theorem attenuateChroma_length (buf : List ℕ) (c : ℚ) :
    (attenuateChroma buf c).length = 4 * (buf.length / 4) := by
  unfold attenuateChroma
  exact flat4_length _ _

theorem attenuateChroma_zero_gray (buf : List ℕ) (i : ℕ) :
    (attenuateChroma buf 0).getD (4 * i) 0 =
      (attenuateChroma buf 0).getD (4 * i + 1) 0 ∧
    (attenuateChroma buf 0).getD (4 * i + 1) 0 =
      (attenuateChroma buf 0).getD (4 * i + 2) 0 := by
  unfold attenuateChroma
  dsimp only
  rw [(flat4_getD _ _ i).1, (flat4_getD _ _ i).2.1, (flat4_getD _ _ i).2.2.1]
  have hcc : max (0 : ℚ) 0 = 0 := max_self 0
  constructor <;> (split <;> simp only [hcc, mul_zero, add_zero])

theorem thumbHashToRGBA_some_eq (cosf : ℕ → ℕ → ℚ) (hash : List ℕ) (c : ℚ) :
    thumbHashToRGBA cosf hash (some c) =
      (if c < 1 then
        ⟨(thumbHashToRGBA cosf hash none).w, (thumbHashToRGBA cosf hash none).h,
          attenuateChroma (thumbHashToRGBA cosf hash none).rgba c⟩
       else thumbHashToRGBA cosf hash none) := rfl

theorem jsRound_toNat_bounds (q : ℚ) (h1 : 1 ≤ q) (h2 : q ≤ 32) :
    1 ≤ (jsRound q).toNat ∧ (jsRound q).toNat ≤ 32 := by
  unfold jsRound
  have hlo : (1 : ℤ) ≤ ⌊q + 1/2⌋ := Int.le_floor.mpr (by push_cast; linarith)
  have hhi : ⌊q + 1/2⌋ < 33 := Int.floor_lt.mpr (by push_cast; linarith)
  omega

theorem decSize_bounds (lx ly : ℕ) (b : Bool)
    (hlx1 : 1 ≤ lx) (hlx2 : lx ≤ 15) (hly1 : 1 ≤ ly) (hly2 : ly ≤ 15) :
    1 ≤ (decSize lx ly b).1 ∧ (decSize lx ly b).1 ≤ 32 ∧
    1 ≤ (decSize lx ly b).2 ∧ (decSize lx ly b).2 ≤ 32 := by
  have hq : ∀ r : ℚ, 1 ≤ r → r ≤ 15 →
      1 ≤ (jsRound (32 / r)).toNat ∧ (jsRound (32 / r)).toNat ≤ 32 := by
    intro r h1 h15
    have hr0 : (0 : ℚ) < r := by linarith
    refine jsRound_toNat_bounds _ ?_ ?_
    · rw [le_div_iff hr0]
      linarith
    · rw [div_le_iff hr0]
      nlinarith
  have h32 : (1 : ℕ) ≤ (jsRound (32 : ℚ)).toNat ∧ (jsRound (32 : ℚ)).toNat ≤ 32 :=
    jsRound_toNat_bounds 32 (by norm_num) le_rfl
  have hratio : ∀ a c : ℕ, 1 ≤ a → a ≤ 15 → 1 ≤ c →
      1 ≤ (if c < a then (a : ℚ) / c else 1) ∧
        (if c < a then (a : ℚ) / c else 1) ≤ 15 := by
    intro a c ha1 ha15 hc1
    split
    · have hc0 : (0 : ℚ) < c := by exact_mod_cast hc1
      constructor
      · rw [le_div_iff hc0, one_mul]
        exact_mod_cast Nat.le_of_lt (by assumption)
      · rw [div_le_iff hc0]
        have h1 : (a : ℚ) ≤ 15 := by exact_mod_cast ha15
        have h2 : (1 : ℚ) ≤ c := by exact_mod_cast hc1
        nlinarith
    · norm_num
  unfold decSize
  cases b with
  | true =>
    dsimp only
    obtain ⟨hr1, hr15⟩ := hratio lx ly hlx1 hlx2 hly1
    exact ⟨h32.1, h32.2, (hq _ hr1 hr15).1, (hq _ hr1 hr15).2⟩
  | false =>
    dsimp only
    obtain ⟨hr1, hr15⟩ := hratio ly lx hly1 hly2 hlx1
    exact ⟨(hq _ hr1 hr15).1, (hq _ hr1 hr15).2, h32.1, h32.2⟩

-- ─── C9: chroma attenuation endpoints ────────────────────────────────

/-- C9: decoding with `chroma = 0` writes the BT.709 luma into all three
color channels of every pixel (exact gray), and any `chroma ≥ 1` skips
the attenuation entirely, giving the same buffer as no chroma option. -/
theorem c9_chroma_endpoints (cosf : ℕ → ℕ → ℚ) (hash : List ℕ) :
    (∀ i : ℕ,
      (thumbHashToRGBA cosf hash (some 0)).rgba.getD (4 * i) 0 =
        (thumbHashToRGBA cosf hash (some 0)).rgba.getD (4 * i + 1) 0 ∧
      (thumbHashToRGBA cosf hash (some 0)).rgba.getD (4 * i + 1) 0 =
        (thumbHashToRGBA cosf hash (some 0)).rgba.getD (4 * i + 2) 0) ∧
    (∀ c : ℚ, 1 ≤ c →
      thumbHashToRGBA cosf hash (some c) = thumbHashToRGBA cosf hash none) := by
  constructor
  · intro i
    rw [thumbHashToRGBA_some_eq, if_pos (by norm_num : (0 : ℚ) < 1)]
    exact attenuateChroma_zero_gray _ i
  · intro c hc
    rw [thumbHashToRGBA_some_eq, if_neg (not_lt.mpr hc)]

/-- C9, witness: gray equality of the first pixel and the `chroma = 2`
no-op on a concrete decode. -/
theorem c9_chroma_witness :
    (thumbHashToRGBA cosfOne [] (some 0)).rgba.getD (4 * 0) 0 =
      (thumbHashToRGBA cosfOne [] (some 0)).rgba.getD (4 * 0 + 1) 0 ∧
    thumbHashToRGBA cosfOne [] (some 2) = thumbHashToRGBA cosfOne [] none :=
  ⟨((c9_chroma_endpoints cosfOne []).1 0).1,
   (c9_chroma_endpoints cosfOne []).2 2 (by norm_num)⟩

-- ─── C7: adaptive chroma + bias pipeline ─────────────────────────────

/-- C7: for every hash and target mean color, the adaptive decode path
equals the spec's staged pipeline — raw decode, raw mean `M`, distance
thresholds, BT.709 attenuation with factor 0.55 / 0.40 / 0.28,
recomputed attenuated mean, bias shift by 0.45 of the remaining gap to
the target with clamping to `[0, 255]` — and the
squared-distance thresholds used in the embedding coincide with the
source's `Math.sqrt` comparisons against 20 and 45. -/
theorem c7_adaptive_pipeline (cosf : ℕ → ℕ → ℚ) (hash : List ℕ)
    (t : ℚ × ℚ × ℚ) :
    thumbHashToDataURLPixels cosf hash none (some t) =
      adaptiveSpecPipeline cosf hash t ∧
    (∀ x : ℝ, (Real.sqrt x < 20 ↔ x < 400) ∧ (Real.sqrt x < 45 ↔ x < 2025)) := by
  constructor
  · unfold thumbHashToDataURLPixels adaptiveSpecPipeline
    dsimp only
    rw [if_pos]
    split
    · norm_num
    · split <;> norm_num
  · intro x
    constructor
    · rw [Real.sqrt_lt' (by norm_num : (0 : ℝ) < 20)]
      norm_num
    · rw [Real.sqrt_lt' (by norm_num : (0 : ℝ) < 45)]
      norm_num

-- ─── C3: decoder error behaviour ─────────────────────────────────────

theorem byteAt_append_replicate_zero (hash : List ℕ) (k : ℕ) :
    byteAt (hash ++ List.replicate k 0) = byteAt hash := by
  funext i
  unfold byteAt
  rcases lt_or_ge i hash.length with h | h
  · rw [List.getD_append _ _ _ _ h]
  · rw [List.getD_append_right _ _ _ _ h, List.getD_eq_default _ _ h]
    rcases lt_or_ge (i - hash.length) k with h2 | h2
    · rw [List.getD_eq_getElem _ _ (by simpa using h2)]
      simp
    · rw [List.getD_eq_default _ _ (by simpa using h2)]

theorem decodeDims_bounds (ha : Bool) (df : ℕ) (b : Bool) (hdf : df ≤ 15) :
    1 ≤ (decodeDims ha df b).1 ∧ (decodeDims ha df b).1 ≤ 15 ∧
    1 ≤ (decodeDims ha df b).2 ∧ (decodeDims ha df b).2 ≤ 15 := by
  unfold decodeDims
  cases b <;> cases ha <;> simp <;> omega

theorem thumbHashToRGBARaw_shape (cosf : ℕ → ℕ → ℚ) (bA : ℕ → ℕ) :
    1 ≤ (thumbHashToRGBARaw cosf bA).w ∧ (thumbHashToRGBARaw cosf bA).w ≤ 32 ∧
    1 ≤ (thumbHashToRGBARaw cosf bA).h ∧ (thumbHashToRGBARaw cosf bA).h ≤ 32 ∧
    (thumbHashToRGBARaw cosf bA).rgba.length =
      4 * ((thumbHashToRGBARaw cosf bA).w * (thumbHashToRGBARaw cosf bA).h) := by
  have key : ∀ (ha b : Bool) (df : ℕ), df ≤ 15 →
      1 ≤ (decSize (decodeDims ha df b).1 (decodeDims ha df b).2 b).1 ∧
      (decSize (decodeDims ha df b).1 (decodeDims ha df b).2 b).1 ≤ 32 ∧
      1 ≤ (decSize (decodeDims ha df b).1 (decodeDims ha df b).2 b).2 ∧
      (decSize (decodeDims ha df b).1 (decodeDims ha df b).2 b).2 ≤ 32 := by
    intro ha b df h
    have hd := decodeDims_bounds ha df b h
    exact decSize_bounds _ _ b hd.1 hd.2.1 hd.2.2.1 hd.2.2.2
  unfold thumbHashToRGBARaw
  dsimp only
  set hdr : ℕ := bA 0 ||| (bA 1 <<< 8) ||| (bA 2 <<< 16) ||| (bA 3 <<< 24)
  have hk := key ((hdr >>> 23) &&& 1 == 1) ((hdr >>> 28) &&& 1 == 1)
    ((hdr >>> 24) &&& 15) Nat.and_le_right
  exact ⟨hk.1, hk.2.1, hk.2.2.1, hk.2.2.2, flat4_length _ _⟩

/-- C3, amended: `thumbHashToRGBA` performs no validation and never
fails: for every input byte string (of any length, including fewer than
6 or 8 bytes) and chroma option it returns a bitmap with `1 ≤ w, h ≤ 32`
and exactly `w*h*4` bytes, out-of-range reads behaving as zero bytes
(appending zero padding never changes the result), and all clamping is
silent; no `TruncatedHash` or `MalformedBasis` error exists in the
decoder. -/
theorem c3_decode_total_amended (cosf : ℕ → ℕ → ℚ) (hash : List ℕ)
    (chroma : Option ℚ) (k : ℕ) :
    (1 ≤ (thumbHashToRGBA cosf hash chroma).w ∧
     (thumbHashToRGBA cosf hash chroma).w ≤ 32 ∧
     1 ≤ (thumbHashToRGBA cosf hash chroma).h ∧
     (thumbHashToRGBA cosf hash chroma).h ≤ 32 ∧
     (thumbHashToRGBA cosf hash chroma).rgba.length =
       4 * ((thumbHashToRGBA cosf hash chroma).w *
         (thumbHashToRGBA cosf hash chroma).h)) ∧
    thumbHashToRGBA cosf (hash ++ List.replicate k 0) chroma =
      thumbHashToRGBA cosf hash chroma := by
  have hshape := thumbHashToRGBARaw_shape cosf (byteAt hash)
  have hnone : thumbHashToRGBA cosf hash none = thumbHashToRGBARaw cosf (byteAt hash) := rfl
  constructor
  · rcases chroma with _ | c
    · rw [hnone]
      exact hshape
    · by_cases hc : c < 1
      · rw [thumbHashToRGBA_some_eq, if_pos hc, hnone]
        dsimp only
        refine ⟨hshape.1, hshape.2.1, hshape.2.2.1, hshape.2.2.2.1, ?_⟩
        rw [attenuateChroma_length, hshape.2.2.2.2]
        omega
      · rw [thumbHashToRGBA_some_eq, if_neg hc, hnone]
        exact hshape
  · show thumbHashToRGBABytes cosf (byteAt (hash ++ List.replicate k 0)) chroma =
      thumbHashToRGBABytes cosf (byteAt hash) chroma
    rw [byteAt_append_replicate_zero]

/-- C3, counterexample: on the empty input (0 bytes, far below the
claimed 6-byte minimum) the decoder does not fail with `TruncatedHash` —
it has no error channel at all and returns an ordinary 5×32 bitmap of
640 bytes, reading every missing byte as zero. -/
theorem c3_no_error_counterexample :
    (thumbHashToRGBA cosfOne [] none).w = 5 ∧
    (thumbHashToRGBA cosfOne [] none).h = 32 ∧
    (thumbHashToRGBA cosfOne [] none).rgba.length = 640 := by
  have hnone : thumbHashToRGBA cosfOne [] none =
      thumbHashToRGBARaw cosfOne (byteAt []) := rfl
  have hshape := thumbHashToRGBARaw_shape cosfOne (byteAt [])
  have hwh : (thumbHashToRGBARaw cosfOne (byteAt [])).w = 5 ∧
      (thumbHashToRGBARaw cosfOne (byteAt [])).h = 32 := by
    have h1 : jsRound ((32 : ℚ) / ((7 : ℚ) / 1)) = 5 := by
      unfold jsRound
      norm_num
    have h2 : jsRound (32 : ℚ) = 32 := by
      unfold jsRound
      norm_num
    unfold thumbHashToRGBARaw
    dsimp only
    have hb : ∀ i, byteAt ([] : List ℕ) i = 0 := fun i => rfl
    simp only [hb]
    norm_num [decodeDims, decSize, h1, h2]
    have h3 : jsRound ((32 : ℚ) / 7) = 5 := by
      unfold jsRound
      norm_num
    rw [h3]
    exact ⟨rfl, rfl⟩
  refine ⟨by rw [hnone]; exact hwh.1, by rw [hnone]; exact hwh.2, ?_⟩
  rw [hnone, hshape.2.2.2.2, hwh.1, hwh.2]

-- ─── C10: determinism against pooled-buffer contents ─────────────────

/-- C10: `Encode` is a function of the source image alone — two runs on
the same image with arbitrary different initial contents of the leased
work buffer produce byte-identical hashes.  In the embedding, the proxy
region (the only work-buffer region whose prior contents could survive
into a read, through the skipped RGB writes of the premultiplied paths
at zero alpha) is explicitly zeroed by `Encode`, and the cosine and AC
regions are fully overwritten before use (they are modelled as values
constructed inside `assembleHash`). -/
theorem c10_pool_determinism (cosf : ℕ → ℕ → ℚ) (img : Image)
    (wbA wbB : ℕ → ℚ) :
    EncodeWith cosf img wbA = EncodeWith cosf img wbB := by
  cases img with
  | nrgba w h pix =>
    unfold EncodeWith
    dsimp only [Image.width, Image.height]
    split
    · rfl
    · unfold assembleHash
      congr 1
      funext i
      by_cases hi : i < (thumbDims w h).1 * (thumbDims w h).2 * 4
      · simp only [if_pos hi]
        split
        · simp only [extractNRGBA, if_pos hi]
        · simp only [dsNRGBA, if_pos hi]
      · simp only [if_neg hi]
  | rgba w h pix =>
    unfold EncodeWith
    dsimp only [Image.width, Image.height]
    split
    · rfl
    · unfold assembleHash
      congr 1
      funext i
      by_cases hi : i < (thumbDims w h).1 * (thumbDims w h).2 * 4
      · simp only [if_pos hi]
        split
        · simp only [extractRGBA, if_pos hi]
          repeat' split
          all_goals try rfl
          all_goals simp only [if_pos hi]
        · simp only [dsRGBA, if_pos hi]
          repeat' split
          all_goals try rfl
          all_goals simp only [if_pos hi]
      · simp only [if_neg hi]

-- ─── hash length machinery ───────────────────────────────────────────

theorem packPairs_length : ∀ l : List ℕ, (packPairs l).length = (l.length + 1) / 2
  | [] => by simp [packPairs]
  | [_] => by simp [packPairs]
  | _ :: _ :: t => by
    simp only [packPairs, List.length_cons, packPairs_length t]
    omega

theorem encFields_spec (cosf : ℕ → ℕ → ℚ) (w h : ℕ) (data : ℕ → ℚ) :
    (encFields cosf w h data).hasAlpha =
      decide ((∑ i ∈ Finset.range (w * h), data (i * 4 + 3)) /
        ((w * h : ℕ) : ℚ) < 1) ∧
    (encFields cosf w h data).basis =
      encBasis w h (encFields cosf w h data).hasAlpha ∧
    (encFields cosf w h data).lAC.length =
      (encFields cosf w h data).basis.lx * (encFields cosf w h data).basis.ly - 1 ∧
    (encFields cosf w h data).pAC.length =
      (encFields cosf w h data).basis.px * (encFields cosf w h data).basis.py - 1 ∧
    (encFields cosf w h data).qAC.length =
      (encFields cosf w h data).basis.px * (encFields cosf w h data).basis.py - 1 ∧
    (encFields cosf w h data).aAC.length =
      (if (encFields cosf w h data).hasAlpha then
        (encFields cosf w h data).basis.ax * (encFields cosf w h data).basis.ay - 1
       else 0) := by
  unfold encFields
  dsimp only
  refine ⟨rfl, rfl, encodeChan_ac_length _ _ _ _ _ _ _ _ _,
    encodeChan_ac_length _ _ _ _ _ _ _ _ _,
    encodeChan_ac_length _ _ _ _ _ _ _ _ _, ?_⟩
  split
  · exact encodeChan_ac_length _ _ _ _ _ _ _ _ _
  · rfl

theorem encFields_hasAlpha_of_opaque (cosf : ℕ → ℕ → ℚ) (w h : ℕ)
    (data : ℕ → ℚ) (hwh : 0 < w * h)
    (hfull : ∀ i, i < w * h → data (i * 4 + 3) = 1) :
    (encFields cosf w h data).hasAlpha = false := by
  rw [(encFields_spec cosf w h data).1]
  have hsum : (∑ i ∈ Finset.range (w * h), data (i * 4 + 3)) = ((w * h : ℕ) : ℚ) := by
    rw [Finset.sum_congr rfl (fun i hi => hfull i (Finset.mem_range.mp hi))]
    simp
  rw [hsum, div_self (by positivity)]
  simp

theorem assembleHashCore_length (cosf : ℕ → ℕ → ℚ) (w h : ℕ) (data : ℕ → ℚ) :
    (assembleHashCore cosf w h data).length =
      (if (encFields cosf w h data).hasAlpha then 8 else 6) +
      (((encFields cosf w h data).basis.lx * (encFields cosf w h data).basis.ly - 1) +
       2 * ((encFields cosf w h data).basis.px * (encFields cosf w h data).basis.py - 1) +
       (if (encFields cosf w h data).hasAlpha then
          (encFields cosf w h data).basis.ax * (encFields cosf w h data).basis.ay - 1
        else 0) + 1) / 2 := by
  obtain ⟨_, _, hl, hp, hq, ha⟩ := encFields_spec cosf w h data
  unfold assembleHashCore
  dsimp only
  rw [List.length_append, List.length_append, packPairs_length]
  simp only [packFields, List.length_map, List.length_append]
  rw [hl, hp, hq]
  cases hα : (encFields cosf w h data).hasAlpha with
  | false =>
    rw [hα] at ha
    simp only [Bool.false_eq_true, if_false] at ha ⊢
    simp only [List.length_cons, List.length_nil, ha]
    omega
  | true =>
    rw [hα] at ha
    simp only [if_true] at ha ⊢
    simp only [List.length_cons, List.length_nil, ha]
    omega

theorem encBasis_bounds (w h : ℕ) (ha : Bool) (hw : 1 ≤ w) (hh : 1 ≤ h) :
    1 ≤ (encBasis w h ha).lx ∧ (encBasis w h ha).lx ≤ (if ha then 5 else 7) ∧
    1 ≤ (encBasis w h ha).ly ∧ (encBasis w h ha).ly ≤ (if ha then 5 else 7) ∧
    1 ≤ (encBasis w h ha).px ∧ (encBasis w h ha).px ≤ 3 ∧
    1 ≤ (encBasis w h ha).py ∧ (encBasis w h ha).py ≤ 3 ∧
    (if ha then 5 else 7) ≤ (encBasis w h ha).lx * (encBasis w h ha).ly ∧
    3 ≤ (encBasis w h ha).px * (encBasis w h ha).py := by
  have hm : 0 < max w h := by omega
  have hwle : w ≤ max w h := le_max_left w h
  have hhle : h ≤ max w h := le_max_right w h
  have hL : 1 ≤ (if ha then 5 else 7 : ℕ) := by cases ha <;> norm_num
  have hlim : (if ha then 5 else 7 : ℕ) = (if ha then 5 else 7 : ℕ) := rfl
  have hlx2 : (encBasis w h ha).lx ≤ (if ha then 5 else 7) := by
    unfold encBasis max1
    dsimp only
    exact max_le hL (roundF_le _ w _ hwle hm)
  have hly2 : (encBasis w h ha).ly ≤ (if ha then 5 else 7) := by
    unfold encBasis max1
    dsimp only
    exact max_le hL (roundF_le _ h _ hhle hm)
  have hlx1 : 1 ≤ (encBasis w h ha).lx := by
    unfold encBasis max1
    dsimp only
    exact le_max_left _ _
  have hly1 : 1 ≤ (encBasis w h ha).ly := by
    unfold encBasis max1
    dsimp only
    exact le_max_left _ _
  have hpx1 : 1 ≤ (encBasis w h ha).px := by
    unfold encBasis max1
    dsimp only
    exact le_max_left _ _
  have hpy1 : 1 ≤ (encBasis w h ha).py := by
    unfold encBasis max1
    dsimp only
    exact le_max_left _ _
  have hpx2 : (encBasis w h ha).px ≤ 3 := by
    unfold encBasis max1
    dsimp only
    exact max_le (by norm_num) (roundF_le 3 w _ hwle hm)
  have hpy2 : (encBasis w h ha).py ≤ 3 := by
    unfold encBasis max1
    dsimp only
    exact max_le (by norm_num) (roundF_le 3 h _ hhle hm)
  have hlprod : (if ha then 5 else 7 : ℕ) ≤ (encBasis w h ha).lx * (encBasis w h ha).ly := by
    rcases le_total h w with hcase | hcase
    · have hmx : max w h = w := by omega
      have hlx : (encBasis w h ha).lx = (if ha then 5 else 7) := by
        unfold encBasis max1
        dsimp only
        rw [hmx, roundF_self _ w (by omega)]
        exact max_eq_right hL
      calc (if ha then 5 else 7 : ℕ) = (if ha then 5 else 7) * 1 :=
          (Nat.mul_one _).symm
        _ ≤ (encBasis w h ha).lx * (encBasis w h ha).ly := by
            rw [hlx] at *
            exact Nat.mul_le_mul le_rfl hly1
    · have hmx : max w h = h := by omega
      have hly : (encBasis w h ha).ly = (if ha then 5 else 7) := by
        unfold encBasis max1
        dsimp only
        rw [hmx, roundF_self _ h (by omega)]
        exact max_eq_right hL
      calc (if ha then 5 else 7 : ℕ) = 1 * (if ha then 5 else 7) :=
          (Nat.one_mul _).symm
        _ ≤ (encBasis w h ha).lx * (encBasis w h ha).ly := by
            rw [hly] at *
            exact Nat.mul_le_mul hlx1 le_rfl
  have hpprod : 3 ≤ (encBasis w h ha).px * (encBasis w h ha).py := by
    rcases le_total h w with hcase | hcase
    · have hmx : max w h = w := by omega
      have hpx : (encBasis w h ha).px = 3 := by
        unfold encBasis max1
        dsimp only
        rw [hmx, roundF_self 3 w (by omega)]
        norm_num
      calc (3 : ℕ) = 3 * 1 := rfl
        _ ≤ (encBasis w h ha).px * (encBasis w h ha).py := by
            rw [hpx]
            exact Nat.mul_le_mul le_rfl hpy1
    · have hmx : max w h = h := by omega
      have hpy : (encBasis w h ha).py = 3 := by
        unfold encBasis max1
        dsimp only
        rw [hmx, roundF_self 3 h (by omega)]
        norm_num
      calc (3 : ℕ) = 1 * 3 := rfl
        _ ≤ (encBasis w h ha).px * (encBasis w h ha).py := by
            rw [hpy]
            exact Nat.mul_le_mul hpx1 le_rfl
  exact ⟨hlx1, hlx2, hly1, hly2, hpx1, hpx2, hpy1, hpy2, hlprod, hpprod⟩

theorem encBasis_alpha_eq (w h : ℕ) :
    (encBasis w h true).ax = (encBasis w h true).lx ∧
    (encBasis w h true).ay = (encBasis w h true).ly := by
  constructor <;> simp [encBasis]

theorem thumbDims_pos (srcW srcH : ℕ) (hw : 1 ≤ srcW) (hh : 1 ≤ srcH) :
    1 ≤ (thumbDims srcW srcH).1 ∧ 1 ≤ (thumbDims srcW srcH).2 := by
  unfold thumbDims max1 maxThumbDim
  split
  · exact ⟨hw, hh⟩
  · split <;> constructor <;> simp <;> omega

-- ─── C2: hash length bounds ──────────────────────────────────────────

/-- C2, amended: for every source image with positive width and height
the hash length lies in `[11, 40]` (not the claimed `[20, 35]`): the
minimum 11 is attained by extreme aspect ratios (e.g. 100×1) and the
maximum 40 by square proxies with alpha; square opaque proxies give 38
bytes, as the spec's own scenario S1 records. -/
theorem c2_length_amended (cosf : ℕ → ℕ → ℚ) (img : Image) (wb0 : ℕ → ℚ)
    (hW : 1 ≤ img.width) (hH : 1 ≤ img.height) :
    11 ≤ (EncodeWith cosf img wb0).length ∧
    (EncodeWith cosf img wb0).length ≤ 40 := by
  obtain ⟨hdw, hdh⟩ := thumbDims_pos img.width img.height hW hH
  unfold EncodeWith
  dsimp only
  rw [if_neg (by omega)]
  unfold assembleHash
  rw [assembleHashCore_length]
  generalize hdata : (fun i => if i < (thumbDims img.width img.height).1 *
    (thumbDims img.width img.height).2 * 4 then _ else (0 : ℚ)) = data
  set F := encFields cosf (thumbDims img.width img.height).1
    (thumbDims img.width img.height).2 data with hF
  have hbb := (encFields_spec cosf (thumbDims img.width img.height).1
    (thumbDims img.width img.height).2 data).2.1
  rw [← hF] at hbb
  cases hα : F.hasAlpha with
  | false =>
    rw [hα] at hbb
    have hb := encBasis_bounds (thumbDims img.width img.height).1
      (thumbDims img.width img.height).2 false hdw hdh
    rw [← hbb] at hb
    simp only [if_neg (by simp : ¬(false = true))] at hb ⊢
    obtain ⟨h1, h2, h3, h4, h5, h6, h7, h8, h9, h10⟩ := hb
    have hml : F.basis.lx * F.basis.ly ≤ 49 := Nat.mul_le_mul h2 h4
    have hmp : F.basis.px * F.basis.py ≤ 9 := Nat.mul_le_mul h6 h8
    omega
  | true =>
    rw [hα] at hbb
    have hb := encBasis_bounds (thumbDims img.width img.height).1
      (thumbDims img.width img.height).2 true hdw hdh
    have hae := encBasis_alpha_eq (thumbDims img.width img.height).1
      (thumbDims img.width img.height).2
    rw [← hbb] at hb hae
    simp only [eq_self_iff_true, if_true] at hb ⊢
    obtain ⟨h1, h2, h3, h4, h5, h6, h7, h8, h9, h10⟩ := hb
    have hml : F.basis.lx * F.basis.ly ≤ 25 := Nat.mul_le_mul h2 h4
    have hmp : F.basis.px * F.basis.py ≤ 9 := Nat.mul_le_mul h6 h8
    rw [hae.1, hae.2]
    omega

/-- C2, counterexample: a 1×1 opaque image (square proxy, no alpha)
encodes to 38 bytes, violating the claimed upper bound of 35.  (The
spec's own scenario S1 lists a 38-byte golden hash for a 64×64 square
source.) -/
theorem c2_length_counterexample :
    (EncodeWith cosfOne img1x1 (fun _ => 0)).length = 38 ∧
    ¬((EncodeWith cosfOne img1x1 (fun _ => 0)).length ≤ 35) := by
  have ht : thumbDims 1 1 = (1, 1) := by decide
  have hg : ([255, 0, 0, 255] : List ℕ).getD 3 0 = 255 := by decide
  have h38 : (EncodeWith cosfOne img1x1 (fun _ => 0)).length = 38 := by
    unfold EncodeWith img1x1
    dsimp only [Image.width, Image.height]
    rw [if_neg (by norm_num)]
    simp only [ht]
    rw [if_pos ⟨le_rfl, le_rfl⟩]
    unfold assembleHash
    rw [assembleHashCore_length]
    generalize hD : (fun i => if i < 1 * 1 * 4 then _ else (0 : ℚ)) = DATA
    have hop : ∀ i, i < 1 * 1 → DATA (i * 4 + 3) = 1 := by
      intro i hi
      have hi0 : i = 0 := by omega
      subst hi0
      rw [← hD]
      norm_num [extractNRGBA, hg]
    have hα := encFields_hasAlpha_of_opaque cosfOne 1 1 DATA (by norm_num) hop
    have hbb := (encFields_spec cosfOne 1 1 DATA).2.1
    rw [hα] at hbb
    have hbv : encBasis 1 1 false = ⟨7, 7, 3, 3, 0, 0⟩ := by decide
    rw [hα, hbb, hbv]
    norm_num
  exact ⟨h38, by rw [h38]; norm_num⟩

/-- C2, witness: the amended bounds at the 1×1 red image. -/
theorem c2_length_witness :
    11 ≤ (EncodeWith cosfOne img1x1 (fun _ => 0)).length ∧
    (EncodeWith cosfOne img1x1 (fun _ => 0)).length ≤ 40 :=
  c2_length_amended cosfOne img1x1 (fun _ => 0) (by decide) (by decide)

-- ─── quantization range machinery (C8) ───────────────────────────────

theorem clamp01_bounds (v : ℚ) : 0 ≤ clamp01 v ∧ clamp01 v ≤ 1 := by
  unfold clamp01
  split
  · norm_num
  · split
    · norm_num
    · constructor <;> linarith

theorem goRound_nonneg_le (q : ℚ) (k : ℤ) (h0 : 0 ≤ q) (hk : q ≤ (k : ℚ)) :
    0 ≤ goRound q ∧ goRound q ≤ k := by
  rw [goRound_nonneg_eq q h0]
  constructor
  · exact Int.le_floor.mpr (by push_cast; linarith)
  · have : ⌊q + 1/2⌋ < k + 1 := Int.floor_lt.mpr (by push_cast; linarith)
    omega

theorem nibOf_le (c : ℚ) : nibOf c ≤ 15 := by
  unfold nibOf
  obtain ⟨h0, h1⟩ := clamp01_bounds (c / 2 + 1/2)
  have := goRound_nonneg_le (clamp01 (c / 2 + 1/2) * 15) 15
    (by positivity) (by push_cast; linarith)
  omega

theorem cosTable_abs_le (cosf : ℕ → ℕ → ℚ) (w : ℕ)
    (hcosb : ∀ n d, |cosf n d| ≤ 1) (i : ℕ) : |cosTable cosf w i| ≤ 1 :=
  hcosb _ _

theorem cosTable_row0 (cosf : ℕ → ℕ → ℚ) (w x : ℕ) (hx : x < w)
    (hcos1 : ∀ d, cosf 0 d = 1) : cosTable cosf w x = 1 := by
  unfold cosTable
  rw [Nat.div_eq_of_lt hx]
  simpa using hcos1 (2 * w)

theorem lpqaOf_abs_le (rgba : ℕ → ℚ) (hr : ∀ j, 0 ≤ rgba j ∧ rgba j ≤ 1)
    (i : ℕ) : |lpqaOf rgba i| ≤ 1 := by
  unfold lpqaOf
  dsimp only
  obtain ⟨ha0, ha1⟩ := hr (i / 4 * 4 + 3)
  obtain ⟨hr0, hr1⟩ := hr (i / 4 * 4)
  obtain ⟨hg0, hg1⟩ := hr (i / 4 * 4 + 1)
  obtain ⟨hb0, hb1⟩ := hr (i / 4 * 4 + 2)
  have pr0 : 0 ≤ rgba (i / 4 * 4) * rgba (i / 4 * 4 + 3) := mul_nonneg hr0 ha0
  have pr1 : rgba (i / 4 * 4) * rgba (i / 4 * 4 + 3) ≤ 1 := mul_le_one hr1 ha0 ha1
  have pg0 : 0 ≤ rgba (i / 4 * 4 + 1) * rgba (i / 4 * 4 + 3) := mul_nonneg hg0 ha0
  have pg1 : rgba (i / 4 * 4 + 1) * rgba (i / 4 * 4 + 3) ≤ 1 := mul_le_one hg1 ha0 ha1
  have pb0 : 0 ≤ rgba (i / 4 * 4 + 2) * rgba (i / 4 * 4 + 3) := mul_nonneg hb0 ha0
  have pb1 : rgba (i / 4 * 4 + 2) * rgba (i / 4 * 4 + 3) ≤ 1 := mul_le_one hb1 ha0 ha1
  have hm : i % 4 = 0 ∨ i % 4 = 1 ∨ i % 4 = 2 ∨ i % 4 = 3 := by omega
  rcases hm with h | h | h | h <;> simp only [h] <;> rw [abs_le] <;>
    constructor <;> linarith

theorem lpqaOf_nonneg_le (rgba : ℕ → ℚ) (hr : ∀ j, 0 ≤ rgba j ∧ rgba j ≤ 1)
    (i : ℕ) (hch : i % 4 = 0 ∨ i % 4 = 3) :
    0 ≤ lpqaOf rgba i ∧ lpqaOf rgba i ≤ 1 := by
  unfold lpqaOf
  dsimp only
  obtain ⟨ha0, ha1⟩ := hr (i / 4 * 4 + 3)
  obtain ⟨hr0, hr1⟩ := hr (i / 4 * 4)
  obtain ⟨hg0, hg1⟩ := hr (i / 4 * 4 + 1)
  obtain ⟨hb0, hb1⟩ := hr (i / 4 * 4 + 2)
  have pr0 : 0 ≤ rgba (i / 4 * 4) * rgba (i / 4 * 4 + 3) := mul_nonneg hr0 ha0
  have pr1 : rgba (i / 4 * 4) * rgba (i / 4 * 4 + 3) ≤ 1 := mul_le_one hr1 ha0 ha1
  have pg0 : 0 ≤ rgba (i / 4 * 4 + 1) * rgba (i / 4 * 4 + 3) := mul_nonneg hg0 ha0
  have pg1 : rgba (i / 4 * 4 + 1) * rgba (i / 4 * 4 + 3) ≤ 1 := mul_le_one hg1 ha0 ha1
  have pb0 : 0 ≤ rgba (i / 4 * 4 + 2) * rgba (i / 4 * 4 + 3) := mul_nonneg hb0 ha0
  have pb1 : rgba (i / 4 * 4 + 2) * rgba (i / 4 * 4 + 3) ≤ 1 := mul_le_one hb1 ha0 ha1
  rcases hch with h | h <;> simp only [h] <;> constructor <;> linarith

theorem dctCoeff_abs_le (data : ℕ → ℚ) (chanOff stride w h : ℕ)
    (cosX cosY : ℕ → ℚ) (cx cy : ℕ) (hw : 0 < w) (hh : 0 < h)
    (hdata : ∀ i, |data i| ≤ 1)
    (hcx : ∀ i, |cosX i| ≤ 1) (hcy : ∀ i, |cosY i| ≤ 1) :
    |dctCoeff data chanOff stride w h cosX cosY cx cy| ≤ 1 := by
  unfold dctCoeff
  rw [abs_div]
  have hpos : (0 : ℚ) < ((w * h : ℕ) : ℚ) := by positivity
  rw [abs_of_pos hpos, div_le_one hpos]
  have hterm : ∀ y x : ℕ,
      |data (y * w * stride + x * stride + chanOff) * cosX (cx * w + x) *
        cosY (cy * h + y)| ≤ 1 := by
    intro y x
    rw [abs_mul, abs_mul]
    exact mul_le_one
      (mul_le_one (hdata _) (abs_nonneg _) (hcx _)) (abs_nonneg _) (hcy _)
  calc |∑ y ∈ Finset.range h, ∑ x ∈ Finset.range w,
        data (y * w * stride + x * stride + chanOff) * cosX (cx * w + x) *
          cosY (cy * h + y)|
      ≤ ∑ y ∈ Finset.range h, |∑ x ∈ Finset.range w,
          data (y * w * stride + x * stride + chanOff) * cosX (cx * w + x) *
            cosY (cy * h + y)| := Finset.abs_sum_le_sum_abs _ _
    _ ≤ ∑ y ∈ Finset.range h, ∑ x ∈ Finset.range w,
          |data (y * w * stride + x * stride + chanOff) * cosX (cx * w + x) *
            cosY (cy * h + y)| :=
        Finset.sum_le_sum fun y _ => Finset.abs_sum_le_sum_abs _ _
    _ ≤ ∑ y ∈ Finset.range h, ∑ x ∈ Finset.range w, (1 : ℚ) :=
        Finset.sum_le_sum fun y _ => Finset.sum_le_sum fun x _ => hterm y x
    _ = ((w * h : ℕ) : ℚ) := by
        simp [Finset.sum_const, Finset.card_range]
        push_cast
        ring

theorem dctCoeff_dc_bounds (data : ℕ → ℚ) (chanOff stride w h : ℕ)
    (cosX cosY : ℕ → ℚ) (hw : 0 < w) (hh : 0 < h)
    (hdata : ∀ y, y < h → ∀ x, x < w →
      0 ≤ data (y * w * stride + x * stride + chanOff) ∧
      data (y * w * stride + x * stride + chanOff) ≤ 1)
    (hcx : ∀ x, x < w → cosX x = 1) (hcy : ∀ y, y < h → cosY y = 1) :
    0 ≤ dctCoeff data chanOff stride w h cosX cosY 0 0 ∧
    dctCoeff data chanOff stride w h cosX cosY 0 0 ≤ 1 := by
  unfold dctCoeff
  have hpos : (0 : ℚ) < ((w * h : ℕ) : ℚ) := by positivity
  have hrw : ∀ y ∈ Finset.range h, ∀ x ∈ Finset.range w,
      data (y * w * stride + x * stride + chanOff) * cosX (0 * w + x) *
        cosY (0 * h + y) = data (y * w * stride + x * stride + chanOff) := by
    intro y hy x hx
    rw [Nat.zero_mul, Nat.zero_add, Nat.zero_mul, Nat.zero_add,
      hcx x (Finset.mem_range.mp hx), hcy y (Finset.mem_range.mp hy)]
    ring
  rw [Finset.sum_congr rfl fun y hy => Finset.sum_congr rfl fun x hx => hrw y hy x hx]
  constructor
  · apply div_nonneg _ (le_of_lt hpos)
    exact Finset.sum_nonneg fun y hy => Finset.sum_nonneg fun x hx =>
      (hdata y (Finset.mem_range.mp hy) x (Finset.mem_range.mp hx)).1
  · rw [div_le_one hpos]
    calc (∑ y ∈ Finset.range h, ∑ x ∈ Finset.range w,
          data (y * w * stride + x * stride + chanOff))
        ≤ ∑ y ∈ Finset.range h, ∑ x ∈ Finset.range w, (1 : ℚ) :=
          Finset.sum_le_sum fun y hy => Finset.sum_le_sum fun x hx =>
            (hdata y (Finset.mem_range.mp hy) x (Finset.mem_range.mp hx)).2
      _ = ((w * h : ℕ) : ℚ) := by
          simp [Finset.sum_const, Finset.card_range]
          push_cast
          ring

theorem absMaxList_nonneg (l : List ℚ) : 0 ≤ absMaxList l := by
  unfold absMaxList
  have key : ∀ (t : List ℚ) (m : ℚ), 0 ≤ m →
      0 ≤ t.foldl (fun m c => max m |c|) m := by
    intro t
    induction t with
    | nil => intro m hm; simpa using hm
    | cons a s ih =>
      intro m hm
      simp only [List.foldl_cons]
      exact ih _ (le_trans hm (le_max_left _ _))
  exact key l 0 le_rfl

theorem absMaxList_le (l : List ℚ) (B : ℚ) (hB : 0 ≤ B)
    (h : ∀ c ∈ l, |c| ≤ B) : absMaxList l ≤ B := by
  unfold absMaxList
  have key : ∀ (t : List ℚ) (m : ℚ), m ≤ B → (∀ c ∈ t, |c| ≤ B) →
      t.foldl (fun m c => max m |c|) m ≤ B := by
    intro t
    induction t with
    | nil => intro m hm _; simpa using hm
    | cons a s ih =>
      intro m hm hall
      simp only [List.foldl_cons]
      exact ih _ (max_le hm (hall a (by simp)))
        (fun c hc => hall c (by simp [hc]))
  exact key l 0 hB h

theorem encodeChan_bounds (data : ℕ → ℚ) (chanOff stride w h nx ny : ℕ)
    (cosX cosY : ℕ → ℚ) (hw : 0 < w) (hh : 0 < h)
    (hdata : ∀ i, |data i| ≤ 1)
    (hcx : ∀ i, |cosX i| ≤ 1) (hcy : ∀ i, |cosY i| ≤ 1) :
    0 ≤ (encodeChan data chanOff stride w h nx ny cosX cosY).1 ∧
    (encodeChan data chanOff stride w h nx ny cosX cosY).1 ≤ 1 ∧
    |(encodeChan data chanOff stride w h nx ny cosX cosY).2.1| ≤ 1 := by
  unfold encodeChan
  dsimp only
  refine ⟨absMaxList_nonneg _, absMaxList_le _ 1 (by norm_num) ?_,
    dctCoeff_abs_le data chanOff stride w h cosX cosY 0 0 hw hh hdata hcx hcy⟩
  intro c hc
  simp only [List.mem_map] at hc
  obtain ⟨k, _, rfl⟩ := hc
  exact dctCoeff_abs_le data chanOff stride w h cosX cosY _ _ hw hh hdata hcx hcy

theorem encodeChan_dc_eq (data : ℕ → ℚ) (chanOff stride w h nx ny : ℕ)
    (cosX cosY : ℕ → ℚ) :
    (encodeChan data chanOff stride w h nx ny cosX cosY).2.1 =
      dctCoeff data chanOff stride w h cosX cosY 0 0 := rfl

theorem encFields_chan_spec (cosf : ℕ → ℕ → ℚ) (w h : ℕ) (data : ℕ → ℚ) :
    (encFields cosf w h data).lScale =
      (encodeChan (lpqaOf data) 0 4 w h (encFields cosf w h data).basis.lx
        (encFields cosf w h data).basis.ly (cosTable cosf w)
        (cosTable cosf h)).1 ∧
    (encFields cosf w h data).lDC =
      (encodeChan (lpqaOf data) 0 4 w h (encFields cosf w h data).basis.lx
        (encFields cosf w h data).basis.ly (cosTable cosf w)
        (cosTable cosf h)).2.1 ∧
    (encFields cosf w h data).pScale =
      (encodeChan (lpqaOf data) 1 4 w h (encFields cosf w h data).basis.px
        (encFields cosf w h data).basis.py (cosTable cosf w)
        (cosTable cosf h)).1 ∧
    (encFields cosf w h data).pDC =
      (encodeChan (lpqaOf data) 1 4 w h (encFields cosf w h data).basis.px
        (encFields cosf w h data).basis.py (cosTable cosf w)
        (cosTable cosf h)).2.1 ∧
    (encFields cosf w h data).qScale =
      (encodeChan (lpqaOf data) 2 4 w h (encFields cosf w h data).basis.px
        (encFields cosf w h data).basis.py (cosTable cosf w)
        (cosTable cosf h)).1 ∧
    (encFields cosf w h data).qDC =
      (encodeChan (lpqaOf data) 2 4 w h (encFields cosf w h data).basis.px
        (encFields cosf w h data).basis.py (cosTable cosf w)
        (cosTable cosf h)).2.1 ∧
    (encFields cosf w h data).aScale =
      (if (encFields cosf w h data).hasAlpha then
        (encodeChan (lpqaOf data) 3 4 w h (encFields cosf w h data).basis.ax
          (encFields cosf w h data).basis.ay (cosTable cosf w)
          (cosTable cosf h)).1
       else 0) ∧
    (encFields cosf w h data).aDC =
      (if (encFields cosf w h data).hasAlpha then
        (encodeChan (lpqaOf data) 3 4 w h (encFields cosf w h data).basis.ax
          (encFields cosf w h data).basis.ay (cosTable cosf w)
          (cosTable cosf h)).2.1
       else 0) := by
  unfold encFields
  dsimp only
  refine ⟨rfl, rfl, rfl, rfl, rfl, rfl, ?_, ?_⟩ <;> (split <;> rfl)

-- ─── C8: packed fields stay inside their bit widths ──────────────────

set_option maxHeartbeats 2000000 in
/-- C8: for every proxy buffer whose floats lie in `[0, 1]` (and any
cosine table with `cos 0 = 1` and values bounded by 1 in absolute
value), every quantized header field of the encoder fits its declared
bit field: `lDCq ∈ [0,63]`, `pDCq, qDCq ∈ [0,62]`, `lScaleq ∈ [0,31]`,
`pScaleq, qScaleq ∈ [0,63]`, `aDCq, aScaleq ∈ [0,15]`,
`dimFlag ∈ [1,7]`, and every AC nibble is at most 15, so no field
overflows into its neighbours. -/
theorem c8_quantized_ranges (cosf : ℕ → ℕ → ℚ) (w h : ℕ) (data : ℕ → ℚ)
    (hw : 0 < w) (hh : 0 < h)
    (hdata : ∀ i, 0 ≤ data i ∧ data i ≤ 1)
    (hcos1 : ∀ d, cosf 0 d = 1) (hcosb : ∀ n d, |cosf n d| ≤ 1) :
    (0 ≤ (packFields w h (encFields cosf w h data)).lDCq ∧
      (packFields w h (encFields cosf w h data)).lDCq ≤ 63) ∧
    (0 ≤ (packFields w h (encFields cosf w h data)).pDCq ∧
      (packFields w h (encFields cosf w h data)).pDCq ≤ 62) ∧
    (0 ≤ (packFields w h (encFields cosf w h data)).qDCq ∧
      (packFields w h (encFields cosf w h data)).qDCq ≤ 62) ∧
    (0 ≤ (packFields w h (encFields cosf w h data)).lScaleq ∧
      (packFields w h (encFields cosf w h data)).lScaleq ≤ 31) ∧
    (0 ≤ (packFields w h (encFields cosf w h data)).pScaleq ∧
      (packFields w h (encFields cosf w h data)).pScaleq ≤ 63) ∧
    (0 ≤ (packFields w h (encFields cosf w h data)).qScaleq ∧
      (packFields w h (encFields cosf w h data)).qScaleq ≤ 63) ∧
    (0 ≤ (packFields w h (encFields cosf w h data)).aDCq ∧
      (packFields w h (encFields cosf w h data)).aDCq ≤ 15) ∧
    (0 ≤ (packFields w h (encFields cosf w h data)).aScaleq ∧
      (packFields w h (encFields cosf w h data)).aScaleq ≤ 15) ∧
    (1 ≤ (packFields w h (encFields cosf w h data)).dimFlag ∧
      (packFields w h (encFields cosf w h data)).dimFlag ≤ 7) ∧
    (∀ x ∈ (packFields w h (encFields cosf w h data)).nibbles, x ≤ 15) := by
  obtain ⟨hsl, hdl, hsp, hdp, hsq, hdq, hsa, hda⟩ :=
    encFields_chan_spec cosf w h data
  have habs : ∀ i, |lpqaOf data i| ≤ 1 := lpqaOf_abs_le data hdata
  have hcX : ∀ i, |cosTable cosf w i| ≤ 1 := cosTable_abs_le cosf w hcosb
  have hcY : ∀ i, |cosTable cosf h i| ≤ 1 := cosTable_abs_le cosf h hcosb
  have hrow0X : ∀ x, x < w → cosTable cosf w x = 1 :=
    fun x hx => cosTable_row0 cosf w x hx hcos1
  have hrow0Y : ∀ y, y < h → cosTable cosf h y = 1 :=
    fun y hy => cosTable_row0 cosf h y hy hcos1
  have hLb := encodeChan_bounds (lpqaOf data) 0 4 w h
    (encFields cosf w h data).basis.lx (encFields cosf w h data).basis.ly
    (cosTable cosf w) (cosTable cosf h) hw hh habs hcX hcY
  have hPb := encodeChan_bounds (lpqaOf data) 1 4 w h
    (encFields cosf w h data).basis.px (encFields cosf w h data).basis.py
    (cosTable cosf w) (cosTable cosf h) hw hh habs hcX hcY
  have hQb := encodeChan_bounds (lpqaOf data) 2 4 w h
    (encFields cosf w h data).basis.px (encFields cosf w h data).basis.py
    (cosTable cosf w) (cosTable cosf h) hw hh habs hcX hcY
  have hAb := encodeChan_bounds (lpqaOf data) 3 4 w h
    (encFields cosf w h data).basis.ax (encFields cosf w h data).basis.ay
    (cosTable cosf w) (cosTable cosf h) hw hh habs hcX hcY
  have hLdc : 0 ≤ (encFields cosf w h data).lDC ∧
      (encFields cosf w h data).lDC ≤ 1 := by
    rw [hdl, encodeChan_dc_eq]
    apply dctCoeff_dc_bounds (lpqaOf data) 0 4 w h _ _ hw hh _ hrow0X hrow0Y
    intro y hy x hx
    exact lpqaOf_nonneg_le data hdata _ (by omega)
  have hAdc : ∀ nx ny : ℕ,
      0 ≤ (encodeChan (lpqaOf data) 3 4 w h nx ny (cosTable cosf w)
        (cosTable cosf h)).2.1 ∧
      (encodeChan (lpqaOf data) 3 4 w h nx ny (cosTable cosf w)
        (cosTable cosf h)).2.1 ≤ 1 := by
    intro nx ny
    rw [encodeChan_dc_eq]
    apply dctCoeff_dc_bounds (lpqaOf data) 3 4 w h _ _ hw hh _ hrow0X hrow0Y
    intro y hy x hx
    exact lpqaOf_nonneg_le data hdata _ (by omega)
  have hPdc : |(encFields cosf w h data).pDC| ≤ 1 := by
    rw [hdp]
    exact hPb.2.2
  have hQdc : |(encFields cosf w h data).qDC| ≤ 1 := by
    rw [hdq]
    exact hQb.2.2
  have hbb := (encFields_spec cosf w h data).2.1
  have hdims := encBasis_bounds w h (encFields cosf w h data).hasAlpha
    (by omega) (by omega)
  rw [← hbb] at hdims
  simp only [packFields]
  refine ⟨?_, ?_, ?_, ?_, ?_, ?_, ?_, ?_, ?_, ?_⟩
  · exact goRound_nonneg_le _ 63 (by nlinarith [hLdc.1]) (by push_cast; nlinarith [hLdc.2])
  · rw [abs_le] at hPdc
    exact goRound_nonneg_le _ 62 (by linarith [hPdc.1]) (by push_cast; linarith [hPdc.2])
  · rw [abs_le] at hQdc
    exact goRound_nonneg_le _ 62 (by linarith [hQdc.1]) (by push_cast; linarith [hQdc.2])
  · rw [hsl]
    exact goRound_nonneg_le _ 31 (by nlinarith [hLb.1]) (by push_cast; nlinarith [hLb.2.1])
  · rw [hsp]
    exact goRound_nonneg_le _ 63 (by nlinarith [hPb.1]) (by push_cast; nlinarith [hPb.2.1])
  · rw [hsq]
    exact goRound_nonneg_le _ 63 (by nlinarith [hQb.1]) (by push_cast; nlinarith [hQb.2.1])
  · split
    · rw [hda]
      rw [if_pos (by assumption)]
      have := hAdc (encFields cosf w h data).basis.ax
        (encFields cosf w h data).basis.ay
      exact goRound_nonneg_le _ 15 (by nlinarith [this.1]) (by push_cast; nlinarith [this.2])
    · norm_num
  · split
    · rw [hsa]
      rw [if_pos (by assumption)]
      exact goRound_nonneg_le _ 15 (by nlinarith [hAb.1]) (by push_cast; nlinarith [hAb.2.1])
    · norm_num
  · have h57 : (if (encFields cosf w h data).hasAlpha then 5 else 7 : ℕ) ≤ 7 := by
      split <;> norm_num
    split
    · exact ⟨hdims.2.2.1, le_trans hdims.2.2.2.1 h57⟩
    · exact ⟨hdims.1, le_trans hdims.2.1 h57⟩
  · intro x hx
    simp only [List.mem_map] at hx
    obtain ⟨c, _, rfl⟩ := hx
    exact nibOf_le c

/-- C8, witness: the ranges at a 1×1 all-opaque-white proxy with the
constant-one stand-in cosine. -/
theorem c8_quantized_ranges_witness :
    (0 ≤ (packFields 1 1 (encFields cosfOne 1 1 (fun _ => 1))).lDCq ∧
      (packFields 1 1 (encFields cosfOne 1 1 (fun _ => 1))).lDCq ≤ 63) ∧
    (0 ≤ (packFields 1 1 (encFields cosfOne 1 1 (fun _ => 1))).pDCq ∧
      (packFields 1 1 (encFields cosfOne 1 1 (fun _ => 1))).pDCq ≤ 62) ∧
    (0 ≤ (packFields 1 1 (encFields cosfOne 1 1 (fun _ => 1))).qDCq ∧
      (packFields 1 1 (encFields cosfOne 1 1 (fun _ => 1))).qDCq ≤ 62) ∧
    (0 ≤ (packFields 1 1 (encFields cosfOne 1 1 (fun _ => 1))).lScaleq ∧
      (packFields 1 1 (encFields cosfOne 1 1 (fun _ => 1))).lScaleq ≤ 31) ∧
    (0 ≤ (packFields 1 1 (encFields cosfOne 1 1 (fun _ => 1))).pScaleq ∧
      (packFields 1 1 (encFields cosfOne 1 1 (fun _ => 1))).pScaleq ≤ 63) ∧
    (0 ≤ (packFields 1 1 (encFields cosfOne 1 1 (fun _ => 1))).qScaleq ∧
      (packFields 1 1 (encFields cosfOne 1 1 (fun _ => 1))).qScaleq ≤ 63) ∧
    (0 ≤ (packFields 1 1 (encFields cosfOne 1 1 (fun _ => 1))).aDCq ∧
      (packFields 1 1 (encFields cosfOne 1 1 (fun _ => 1))).aDCq ≤ 15) ∧
    (0 ≤ (packFields 1 1 (encFields cosfOne 1 1 (fun _ => 1))).aScaleq ∧
      (packFields 1 1 (encFields cosfOne 1 1 (fun _ => 1))).aScaleq ≤ 15) ∧
    (1 ≤ (packFields 1 1 (encFields cosfOne 1 1 (fun _ => 1))).dimFlag ∧
      (packFields 1 1 (encFields cosfOne 1 1 (fun _ => 1))).dimFlag ≤ 7) ∧
    (∀ x ∈ (packFields 1 1 (encFields cosfOne 1 1 (fun _ => 1))).nibbles,
      x ≤ 15) :=
  c8_quantized_ranges cosfOne 1 1 (fun _ => 1) (by norm_num) (by norm_num)
    (fun _ => ⟨by norm_num, by norm_num⟩) (fun _ => rfl)
    (fun _ _ => by norm_num [cosfOne])

-- ─── evaluation helpers with the orthogonal cosine stand-in ──────────

theorem range_drop_one (n : ℕ) :
    (List.range (n + 1)).drop 1 = (List.range n).map (· + 1) := by
  rw [List.range_succ_eq_map]
  rfl

theorem mem_range_drop_one {m k : ℕ} (hk : k ∈ (List.range m).drop 1) :
    1 ≤ k ∧ k < m := by
  cases m with
  | zero => simp [List.range_zero] at hk
  | succ n =>
    rw [range_drop_one] at hk
    simp only [List.mem_map, List.mem_range] at hk
    obtain ⟨j, hj, rfl⟩ := hk
    omega

theorem cosTable_ortho_zero (w cx x : ℕ) (hx : x < w) (hcx : 1 ≤ cx) :
    cosTable cosfOrtho w (cx * w + x) = 0 := by
  unfold cosTable cosfOrtho
  have hw : 0 < w := by omega
  have hdiv : (cx * w + x) / w = cx := by
    rw [Nat.mul_comm cx w, Nat.mul_add_div hw, Nat.div_eq_of_lt hx]
    omega
  have hmod : (cx * w + x) % w = x := by
    rw [Nat.mul_comm cx w, Nat.mul_add_mod, Nat.mod_eq_of_lt hx]
  rw [hdiv, hmod]
  rw [if_neg (by positivity)]

theorem absMaxList_replicate_zero (m : ℕ) :
    absMaxList (List.replicate m 0) = 0 :=
  le_antisymm
    (absMaxList_le _ 0 le_rfl fun c hc => by
      rw [List.eq_of_mem_replicate hc]
      simp)
    (absMaxList_nonneg _)

theorem encodeChan_ortho (data : ℕ → ℚ) (chanOff stride w h nx ny : ℕ) :
    (encodeChan data chanOff stride w h nx ny (cosTable cosfOrtho w)
      (cosTable cosfOrtho h)).1 = 0 ∧
    (encodeChan data chanOff stride w h nx ny (cosTable cosfOrtho w)
      (cosTable cosfOrtho h)).2.2 = List.replicate (nx * ny - 1) 0 := by
  have hzero : ∀ k, 1 ≤ k → k < nx * ny →
      dctCoeff data chanOff stride w h (cosTable cosfOrtho w)
        (cosTable cosfOrtho h) (k % nx) (k / nx) = 0 := by
    intro k hk hkm
    have hnx : 0 < nx := by
      rcases Nat.eq_zero_or_pos nx with h0 | h0
      · subst h0; omega
      · exact h0
    unfold dctCoeff
    have hnum : (∑ y ∈ Finset.range h, ∑ x ∈ Finset.range w,
        data (y * w * stride + x * stride + chanOff) *
          cosTable cosfOrtho w (k % nx * w + x) *
          cosTable cosfOrtho h (k / nx * h + y)) = 0 := by
      apply Finset.sum_eq_zero
      intro y hy
      apply Finset.sum_eq_zero
      intro x hx
      rcases Nat.eq_zero_or_pos (k % nx) with hcx | hcx
      · have hcy : 1 ≤ k / nx := by
          by_contra hc
          have h0 : k / nx = 0 := Nat.lt_one_iff.mp (Nat.not_le.mp hc)
          have hdm := Nat.div_add_mod k nx
          rw [h0, hcx] at hdm
          omega
        rw [cosTable_ortho_zero h (k / nx) y (Finset.mem_range.mp hy) hcy]
        ring
      · rw [cosTable_ortho_zero w (k % nx) x (Finset.mem_range.mp hx) hcx]
        ring
    rw [hnum]
    simp
  have hraw : ((List.range (nx * ny)).drop 1).map
      (fun k => dctCoeff data chanOff stride w h (cosTable cosfOrtho w)
        (cosTable cosfOrtho h) (k % nx) (k / nx)) =
      List.replicate (nx * ny - 1) 0 := by
    refine List.eq_replicate.mpr ⟨by simp, ?_⟩
    intro b hb
    simp only [List.mem_map] at hb
    obtain ⟨k, hk, rfl⟩ := hb
    obtain ⟨hk1, hk2⟩ := mem_range_drop_one hk
    exact hzero k hk1 hk2
  unfold encodeChan
  dsimp only
  rw [hraw, absMaxList_replicate_zero]
  exact ⟨rfl, by rw [if_neg (lt_irrefl 0)]⟩

-- ─── C1: encoder/decoder AC nibble agreement ─────────────────────────

set_option maxHeartbeats 2000000 in
/-- C1: the decoder's parse does NOT consume exactly the nibbles the
encoder packs.  For the 2×1 opaque red image the encoder chooses the
P/Q basis `3×2` and packs `27 + 5 + 5 = 37` AC nibbles (a 25-byte
hash), while the decoder's `readAC` calls on that very hash demand
`27 + 8 + 8 = 43` nibbles — which would need a 28-byte hash — because
the decoder always reads `3*3 − 1` P and Q coefficients.  The decoder
therefore reads past the bytes the encoder wrote. -/
theorem c1_pq_nibble_divergence :
    (EncodeWith cosfOrtho img2x1 (fun _ => 0)).length = 25 ∧
    decNibbleTotal (EncodeWith cosfOrtho img2x1 (fun _ => 0)) = 43 ∧
    6 + (decNibbleTotal (EncodeWith cosfOrtho img2x1 (fun _ => 0)) + 1) / 2 = 28 ∧
    (EncodeWith cosfOrtho img2x1 (fun _ => 0)).length <
      6 + (decNibbleTotal (EncodeWith cosfOrtho img2x1 (fun _ => 0)) + 1) / 2 := by
  have ht : thumbDims 2 1 = (2, 1) := by decide
  have hp0 : ([255, 0, 0, 255, 255, 0, 0, 255] : List ℕ).getD 0 0 = 255 := by decide
  have hp1 : ([255, 0, 0, 255, 255, 0, 0, 255] : List ℕ).getD 1 0 = 0 := by decide
  have hp2 : ([255, 0, 0, 255, 255, 0, 0, 255] : List ℕ).getD 2 0 = 0 := by decide
  have hp3 : ([255, 0, 0, 255, 255, 0, 0, 255] : List ℕ).getD 3 0 = 255 := by decide
  have hp4 : ([255, 0, 0, 255, 255, 0, 0, 255] : List ℕ).getD 4 0 = 255 := by decide
  have hp5 : ([255, 0, 0, 255, 255, 0, 0, 255] : List ℕ).getD 5 0 = 0 := by decide
  have hp6 : ([255, 0, 0, 255, 255, 0, 0, 255] : List ℕ).getD 6 0 = 0 := by decide
  have hp7 : ([255, 0, 0, 255, 255, 0, 0, 255] : List ℕ).getD 7 0 = 255 := by decide
  obtain ⟨rest, hEq, hrest⟩ : ∃ rest : List ℕ,
      EncodeWith cosfOrtho img2x1 (fun _ => 0) =
        [213, 235, 3, 20, 0, 0] ++ rest ∧ rest.length = 19 := by
    unfold EncodeWith img2x1
    dsimp only [Image.width, Image.height]
    rw [if_neg (by norm_num)]
    simp only [ht]
    rw [if_pos ⟨le_rfl, le_rfl⟩]
    unfold assembleHash
    generalize hD : (fun i => if i < 2 * 1 * 4 then _ else (0 : ℚ)) = DATA
    have hDv : DATA 0 = 1 ∧ DATA 1 = 0 ∧ DATA 2 = 0 ∧ DATA 3 = 1 ∧
        DATA 4 = 1 ∧ DATA 5 = 0 ∧ DATA 6 = 0 ∧ DATA 7 = 1 := by
      rw [← hD]
      norm_num [extractNRGBA, hp0, hp1, hp2, hp3, hp4, hp5, hp6, hp7]
    obtain ⟨hv0, hv1, hv2, hv3, hv4, hv5, hv6, hv7⟩ := hDv
    have hlp0 : lpqaOf DATA 0 = 1/3 := by
      unfold lpqaOf
      norm_num [hv0, hv1, hv2, hv3]
    have hlp4 : lpqaOf DATA 4 = 1/3 := by
      unfold lpqaOf
      norm_num [hv4, hv5, hv6, hv7]
    have hlp1 : lpqaOf DATA 1 = 1/2 := by
      unfold lpqaOf
      norm_num [hv0, hv1, hv2, hv3]
    have hlp5 : lpqaOf DATA 5 = 1/2 := by
      unfold lpqaOf
      norm_num [hv4, hv5, hv6, hv7]
    have hlp2 : lpqaOf DATA 2 = 1 := by
      unfold lpqaOf
      norm_num [hv0, hv1, hv2, hv3]
    have hlp6 : lpqaOf DATA 6 = 1 := by
      unfold lpqaOf
      norm_num [hv4, hv5, hv6, hv7]
    have hc20 : cosTable cosfOrtho 2 0 = 1 := rfl
    have hc21 : cosTable cosfOrtho 2 1 = 1 := rfl
    have hc10 : cosTable cosfOrtho 1 0 = 1 := rfl
    have hdcL : dctCoeff (lpqaOf DATA) 0 4 2 1 (cosTable cosfOrtho 2)
        (cosTable cosfOrtho 1) 0 0 = 1/3 := by
      unfold dctCoeff
      rw [Finset.sum_range_one, Finset.sum_range_succ, Finset.sum_range_one]
      norm_num [hlp0, hlp4, hc20, hc21, hc10]
    have hdcP : dctCoeff (lpqaOf DATA) 1 4 2 1 (cosTable cosfOrtho 2)
        (cosTable cosfOrtho 1) 0 0 = 1/2 := by
      unfold dctCoeff
      rw [Finset.sum_range_one, Finset.sum_range_succ, Finset.sum_range_one]
      norm_num [hlp1, hlp5, hc20, hc21, hc10]
    have hdcQ : dctCoeff (lpqaOf DATA) 2 4 2 1 (cosTable cosfOrtho 2)
        (cosTable cosfOrtho 1) 0 0 = 1 := by
      unfold dctCoeff
      rw [Finset.sum_range_one, Finset.sum_range_succ, Finset.sum_range_one]
      norm_num [hlp2, hlp6, hc20, hc21, hc10]
    have hα : (encFields cosfOrtho 2 1 DATA).hasAlpha = false := by
      apply encFields_hasAlpha_of_opaque cosfOrtho 2 1 DATA (by norm_num)
      intro i hi
      interval_cases i
      · exact hv3
      · exact hv7
    have hbb := (encFields_spec cosfOrtho 2 1 DATA).2.1
    rw [hα] at hbb
    have hbv : encBasis 2 1 false = ⟨7, 4, 3, 2, 0, 0⟩ := by decide
    rw [hbv] at hbb
    obtain ⟨hsl, hdl, hsp, hdp, hsq, hdq, hsa, hda⟩ :=
      encFields_chan_spec cosfOrtho 2 1 DATA
    rw [hbb] at hsl hdl hsp hdp hsq hdq
    dsimp only at hsl hdl hsp hdp hsq hdq
    have hFls : (encFields cosfOrtho 2 1 DATA).lScale = 0 := by
      rw [hsl]
      exact (encodeChan_ortho (lpqaOf DATA) 0 4 2 1 7 4).1
    have hFld : (encFields cosfOrtho 2 1 DATA).lDC = 1/3 := by
      rw [hdl, encodeChan_dc_eq]
      exact hdcL
    have hFps : (encFields cosfOrtho 2 1 DATA).pScale = 0 := by
      rw [hsp]
      exact (encodeChan_ortho (lpqaOf DATA) 1 4 2 1 3 2).1
    have hFpd : (encFields cosfOrtho 2 1 DATA).pDC = 1/2 := by
      rw [hdp, encodeChan_dc_eq]
      exact hdcP
    have hFqs : (encFields cosfOrtho 2 1 DATA).qScale = 0 := by
      rw [hsq]
      exact (encodeChan_ortho (lpqaOf DATA) 2 4 2 1 3 2).1
    have hFqd : (encFields cosfOrtho 2 1 DATA).qDC = 1 := by
      rw [hdq, encodeChan_dc_eq]
      exact hdcQ
    have hgr1 : goRound ((1/3 : ℚ) * 63) = 21 :=
      goRound_eq_of _ 21 (by norm_num) (by push_cast; norm_num)
        (by push_cast; norm_num)
    have hgr2 : goRound ((1/2 : ℚ) * 31 + 31) = 47 :=
      goRound_eq_of _ 47 (by norm_num) (by push_cast; norm_num)
        (by push_cast; norm_num)
    have hgr3 : goRound ((1 : ℚ) * 31 + 31) = 62 :=
      goRound_eq_of _ 62 (by norm_num) (by push_cast; norm_num)
        (by push_cast; norm_num)
    have hgr4 : goRound ((0 : ℚ) * 31) = 0 :=
      goRound_eq_of _ 0 (by norm_num) (by push_cast; norm_num)
        (by push_cast; norm_num)
    have hgr5 : goRound ((0 : ℚ) * 63) = 0 :=
      goRound_eq_of _ 0 (by norm_num) (by push_cast; norm_num)
        (by push_cast; norm_num)
    have pkl : (packFields 2 1 (encFields cosfOrtho 2 1 DATA)).lDCq = 21 := by
      simp only [packFields]
      rw [hFld, hgr1]
    have pkp : (packFields 2 1 (encFields cosfOrtho 2 1 DATA)).pDCq = 47 := by
      simp only [packFields]
      rw [hFpd, hgr2]
    have pkq : (packFields 2 1 (encFields cosfOrtho 2 1 DATA)).qDCq = 62 := by
      simp only [packFields]
      rw [hFqd, hgr3]
    have pks : (packFields 2 1 (encFields cosfOrtho 2 1 DATA)).lScaleq = 0 := by
      simp only [packFields]
      rw [hFls, hgr4]
    have pkps : (packFields 2 1 (encFields cosfOrtho 2 1 DATA)).pScaleq = 0 := by
      simp only [packFields]
      rw [hFps, hgr5]
    have pkqs : (packFields 2 1 (encFields cosfOrtho 2 1 DATA)).qScaleq = 0 := by
      simp only [packFields]
      rw [hFqs, hgr5]
    have pkd : (packFields 2 1 (encFields cosfOrtho 2 1 DATA)).dimFlag = 4 := by
      simp only [packFields]
      rw [if_pos (by norm_num : (1 : ℕ) < 2), hbb]
    have pki : (packFields 2 1 (encFields cosfOrtho 2 1 DATA)).isLandscape = true := by
      simp only [packFields]
      simp
    have pknib : (packFields 2 1 (encFields cosfOrtho 2 1 DATA)).nibbles.length = 37 := by
      simp only [packFields, List.length_map, List.length_append]
      rw [hα]
      obtain ⟨_, _, hl, hp, hq, _⟩ := encFields_spec cosfOrtho 2 1 DATA
      rw [hl, hp, hq, hbb]
      simp
    refine ⟨packPairs (packFields 2 1 (encFields cosfOrtho 2 1 DATA)).nibbles, ?_, ?_⟩
    · unfold assembleHashCore
      dsimp only
      rw [hα, pkl, pkp, pkq, pks, pkps, pkqs, pkd, pki]
      norm_num
      decide
    · rw [packPairs_length, pknib]
  refine ⟨?_, ?_, ?_, ?_⟩ <;> rw [hEq]
  · simp [hrest]
  · unfold decNibbleTotal byteAt
    have h0 : (([213, 235, 3, 20, 0, 0] : List ℕ) ++ rest).getD 0 0 = 213 := rfl
    have h1 : (([213, 235, 3, 20, 0, 0] : List ℕ) ++ rest).getD 1 0 = 235 := rfl
    have h2 : (([213, 235, 3, 20, 0, 0] : List ℕ) ++ rest).getD 2 0 = 3 := rfl
    have h3 : (([213, 235, 3, 20, 0, 0] : List ℕ) ++ rest).getD 3 0 = 20 := rfl
    rw [h0, h1, h2, h3]
    decide
  · unfold decNibbleTotal byteAt
    have h0 : (([213, 235, 3, 20, 0, 0] : List ℕ) ++ rest).getD 0 0 = 213 := rfl
    have h1 : (([213, 235, 3, 20, 0, 0] : List ℕ) ++ rest).getD 1 0 = 235 := rfl
    have h2 : (([213, 235, 3, 20, 0, 0] : List ℕ) ++ rest).getD 2 0 = 3 := rfl
    have h3 : (([213, 235, 3, 20, 0, 0] : List ℕ) ++ rest).getD 3 0 = 20 := rfl
    rw [h0, h1, h2, h3]
    decide
  · unfold decNibbleTotal byteAt
    have h0 : (([213, 235, 3, 20, 0, 0] : List ℕ) ++ rest).getD 0 0 = 213 := rfl
    have h1 : (([213, 235, 3, 20, 0, 0] : List ℕ) ++ rest).getD 1 0 = 235 := rfl
    have h2 : (([213, 235, 3, 20, 0, 0] : List ℕ) ++ rest).getD 2 0 = 3 := rfl
    have h3 : (([213, 235, 3, 20, 0, 0] : List ℕ) ++ rest).getD 3 0 = 20 := rfl
    rw [h0, h1, h2, h3]
    simp only [List.length_append, hrest]
    decide

/-- C4, witness: the amended statement at a 2×1 proxy. -/
theorem c4_alpha_basis_witness :
    (encBasis 2 1 true).ax = (encBasis 2 1 true).lx ∧
    (encBasis 2 1 true).ay = (encBasis 2 1 true).ly ∧
    decodeDims true
        (if (1 : ℕ) < 2 then (encBasis 2 1 true).ly else (encBasis 2 1 true).lx)
        (decide ((1 : ℕ) < 2)) =
      ((encBasis 2 1 true).lx, (encBasis 2 1 true).ly) ∧
    (encBasis 2 1 true).ax * (encBasis 2 1 true).ay - 1 =
      (encBasis 2 1 true).lx * (encBasis 2 1 true).ly - 1 :=
  c4_alpha_basis_amended 2 1 (by norm_num) (by norm_num)

end Tgimg
